import Mathlib

/-!
Verification development for the Classical-Ciphers repository.

Python strings are modelled as lists of code points (`List Nat`), restricted to
the ASCII behaviour of `str.isalpha`, `str.isupper`, `str.upper`, etc., which is
the only behaviour the repository's 26-letter ciphers exercise.  Python's `%` on
integers with a positive divisor agrees with Lean's `Int.emod`, which is used
throughout (every modulus in the source is the positive constant 26).
Functions that can raise in Python are modelled as `Option`-valued, `none`
standing for the raised exception.
-/

namespace Ciphers

/-- Python string, as its list of code points. -/
abbrev PyStr := List Nat

/-- Python `c.isupper()` for an ASCII code point. -/
def isUpperCp (c : Nat) : Bool := 65 ≤ c && c ≤ 90

/-- Python `c.islower()` for an ASCII code point. -/
def isLowerCp (c : Nat) : Bool := 97 ≤ c && c ≤ 122

/-- Python `c.isalpha()` for an ASCII code point. -/
def isAlphaCp (c : Nat) : Bool := isUpperCp c || isLowerCp c

/-- Python `c.isdigit()` for an ASCII code point. -/
def isDigitCp (c : Nat) : Bool := 48 ≤ c && c ≤ 57

/-- Python `c.isalnum()` for an ASCII code point. -/
def isAlnumCp (c : Nat) : Bool := isAlphaCp c || isDigitCp c

/-- Python `c.upper()` for an ASCII code point. -/
def upperCp (c : Nat) : Nat := if isLowerCp c then c - 32 else c

/-- Python `s.upper()` for an ASCII string. -/
def upperStr (s : PyStr) : PyStr := s.map upperCp

/-- The residue `ord(c.upper()) - ord('A')` used by the keyed ciphers, as an
integer (it is negative for some non-alphabetic characters, exactly as in the
Python source). -/
def ordA (c : Nat) : Int := (upperCp c : Int) - 65

/-- Reassemble a letter from a residue `e` in `[0, 26)`, matching the input's
case: the Python idiom `chr(e + ord('A'))` followed by
`encrypted_char if is_upper else encrypted_char.lower()`. -/
def recase (c : Nat) (e : Int) : Nat :=
  if isUpperCp c then (65 + e).toNat else (97 + e).toNat

/-- Python `range(lo, hi + 1)` over integers. -/
def intRange (lo hi : Int) : List Int :=
  (List.range (hi + 1 - lo).toNat).map (fun (k : Nat) => lo + (k : Int))

namespace caesar

/-- Per-character body of `caesar.encrypt`'s loop. -/
def encryptChar (shift : Int) (c : Nat) : Nat :=
  if isAlphaCp c then
    let ascii_base : Int := if isUpperCp c then 65 else 97
    let shifted := ((c : Int) - ascii_base + shift) % 26
    (ascii_base + shifted).toNat
  else c

/-- Source `caesar.encrypt`. -/
def encrypt (text : PyStr) (shift : Int) : PyStr := text.map (encryptChar shift)

/-- Source `caesar.decrypt`: encryption with the negated shift. -/
def decrypt (text : PyStr) (shift : Int) : PyStr := encrypt text (-shift)

end caesar

namespace atbash

/-- Per-character body of `atbash.encrypt`'s loop. -/
def encryptChar (c : Nat) : Nat :=
  if isAlphaCp c then
    if isUpperCp c then 90 - (c - 65) else 122 - (c - 97)
  else c

/-- Source `atbash.encrypt`. -/
def encrypt (text : PyStr) : PyStr := text.map encryptChar

/-- Source `atbash.decrypt`: Atbash is its own inverse. -/
def decrypt (text : PyStr) : PyStr := encrypt text

end atbash

namespace august

/-- Source `august.encrypt`: progressive shift, advanced only on alphabetic
characters. -/
def encryptGo (shift : Int) : PyStr → PyStr
  | [] => []
  | c :: cs =>
    if isAlphaCp c then
      (let ascii_base : Int := if isUpperCp c then 65 else 97
       (ascii_base + ((c : Int) - ascii_base + shift) % 26).toNat) :: encryptGo (shift + 1) cs
    else c :: encryptGo shift cs

/-- Source `august.encrypt`. -/
def encrypt (text : PyStr) (initial_shift : Int) : PyStr := encryptGo initial_shift text

/-- Source `august.decrypt`: progressive shift subtracted. -/
def decryptGo (shift : Int) : PyStr → PyStr
  | [] => []
  | c :: cs =>
    if isAlphaCp c then
      (let ascii_base : Int := if isUpperCp c then 65 else 97
       (ascii_base + ((c : Int) - ascii_base - shift) % 26).toNat) :: decryptGo (shift + 1) cs
    else c :: decryptGo shift cs

/-- Source `august.decrypt`. -/
def decrypt (text : PyStr) (initial_shift : Int) : PyStr := decryptGo initial_shift text

end august

namespace affine

/-- Source `affine.gcd`: Euclid's loop `while b: a, b = b, a % b`. -/
def gcd (a b : Int) : Int :=
  if h : b = 0 then a else gcd b (a % b)
  termination_by b.natAbs
  decreasing_by
    have h0 : 0 ≤ a % b := Int.emod_nonneg a h
    rcases lt_trichotomy b 0 with hb | hb | hb
    · have h1 := Int.emod_lt_of_pos a (b := -b) (by omega)
      rw [Int.emod_neg] at h1
      omega
    · exact absurd hb h
    · have h1 := Int.emod_lt_of_pos a hb
      omega

/-- Per-character body of `affine.encrypt`'s loop. -/
def encryptChar (a b : Int) (c : Nat) : Nat :=
  if isAlphaCp c then
    let x := ordA c
    recase c ((a * x + b) % 26)
  else c

/-- Source `affine.encrypt`; `none` models the `ValueError` raised when
`gcd(a, 26) != 1`. -/
def encrypt (text : PyStr) (a b : Int) : Option PyStr :=
  if gcd a 26 ≠ 1 then none
  else some (text.map (encryptChar a b))

end affine

namespace vigenere

/-- Loop of source `vigenere.prepare_key` over the text, carrying `key_index`;
`none` models the `ZeroDivisionError` of `key_index % len(key)` on an empty
key (reached only when an alphabetic character occurs). -/
def prepare_keyGo (key : PyStr) (ki : Nat) : PyStr → Option PyStr
  | [] => some []
  | c :: cs =>
    if isAlphaCp c then
      if key.length = 0 then none
      else (prepare_keyGo key (ki + 1) cs).map (key.getD (ki % key.length) 0 :: ·)
    else (prepare_keyGo key ki cs).map (c :: ·)

/-- Source `vigenere.prepare_key`. -/
def prepare_key (text key : PyStr) : Option PyStr := prepare_keyGo (upperStr key) 0 text

/-- Per-character encryption: `(x + k) % 26`, recased. -/
def encryptChar (c k : Nat) : Nat :=
  if isAlphaCp c then recase c ((ordA c + ordA k) % 26) else c

/-- Source `vigenere.encrypt`. -/
def encrypt (text key : PyStr) : Option PyStr :=
  (prepare_key text key).map (fun ks => List.zipWith encryptChar text ks)

/-- Per-character decryption: `(x - k) % 26`, recased. -/
def decryptChar (c k : Nat) : Nat :=
  if isAlphaCp c then recase c ((ordA c - ordA k) % 26) else c

/-- Source `vigenere.decrypt`. -/
def decrypt (text key : PyStr) : Option PyStr :=
  (prepare_key text key).map (fun ks => List.zipWith decryptChar text ks)

end vigenere

namespace beaufort

/-- Loop of source `beaufort.prepare_key` (textually identical to the Vigenère
one), carrying `key_index`. -/
def prepare_keyGo (key : PyStr) (ki : Nat) : PyStr → Option PyStr
  | [] => some []
  | c :: cs =>
    if isAlphaCp c then
      if key.length = 0 then none
      else (prepare_keyGo key (ki + 1) cs).map (key.getD (ki % key.length) 0 :: ·)
    else (prepare_keyGo key ki cs).map (c :: ·)

/-- Source `beaufort.prepare_key`. -/
def prepare_key (text key : PyStr) : Option PyStr := prepare_keyGo (upperStr key) 0 text

/-- Per-character Beaufort transformation: `(k - x) % 26`, recased. -/
def beaufortChar (c k : Nat) : Nat :=
  if isAlphaCp c then recase c ((ordA k - ordA c) % 26) else c

/-- Source `beaufort.beaufort`, aliased by both `encrypt` and `decrypt`. -/
def beaufort (text key : PyStr) : Option PyStr :=
  (prepare_key text key).map (fun ks => List.zipWith beaufortChar text ks)

end beaufort

namespace autokey

/-- Source `autokey.prepare_key`: the priming key followed by the first
`len(text) - len(priming_key)` characters of the uppercased text.  The
source's `if`/`else` branches are textually identical, so the loop appends
`text[text_index]` for every index in `range(len(priming_key), len(text))`,
non-alphabetic characters included. -/
def prepare_key (text priming_key : PyStr) : PyStr :=
  upperStr priming_key ++ (upperStr text).take (text.length - priming_key.length)

/-- Per-character encryption: `(x + k) % 26`, recased. -/
def encryptChar (c k : Nat) : Nat :=
  if isAlphaCp c then recase c ((ordA c + ordA k) % 26) else c

/-- Source `autokey.encrypt`: `zip(text, key)` with the prepared key (the
prepared key is never shorter than the text, so the zip spans all of it). -/
def encrypt (text priming_key : PyStr) : PyStr :=
  List.zipWith encryptChar text (prepare_key text priming_key)

/-- Loop of source `autokey.decrypt`: `i` is the enumeration index,
`text_index` counts alphabetic characters seen past the priming key, and
`result` is the accumulated output, which doubles as the key source beyond
the priming key.  The `result[text_index]` subscript is modelled with
`getD`; it is within bounds whenever the priming key is non-empty, as in
every decryption the source performs. -/
def decryptGo (pkU : PyStr) (pkLen : Nat) (i ti : Nat) (result : PyStr) : PyStr → PyStr
  | [] => result
  | c :: cs =>
    if isAlphaCp c then
      let kn : Int :=
        if i < pkLen then ordA (pkU.getD i 0) else ordA (result.getD ti 0)
      let ti' := if i < pkLen then ti else ti + 1
      let o := recase c ((ordA c - kn) % 26)
      decryptGo pkU pkLen (i + 1) ti' (result ++ [o]) cs
    else decryptGo pkU pkLen (i + 1) ti (result ++ [c]) cs

/-- Source `autokey.decrypt`. -/
def decrypt (text priming_key : PyStr) : PyStr :=
  decryptGo (upperStr priming_key) priming_key.length 0 0 [] text

end autokey

namespace railfence

/-- One step of the bouncing pointer of `railfence.create_fence`: the direction
is recomputed from the current rail, then added to it. -/
def stepRail (rails : Int) (rd : Int × Int) : Int × Int :=
  let d := if rd.1 = 0 then 1 else if rd.1 = rails - 1 then -1 else rd.2
  (rd.1 + d, d)

/-- The rail assigned to each of the `n` text positions, starting from
`rail = 0, direction = 1` as in the source. -/
def railSeqGo (rails : Int) (rd : Int × Int) : Nat → List Int
  | 0 => []
  | n + 1 => rd.1 :: railSeqGo rails (stepRail rails rd) n

/-- Rail assignment for a text of length `n`. -/
def railSeq (rails : Int) (n : Nat) : List Int := railSeqGo rails (0, 1) n

/-- Source `railfence.create_fence`: a `rails × len(text)` grid whose cells are
initialised to `'\n'` (code point 10); the loop then writes `text[i]` into row
`rail_i`, column `i` — each column is written exactly once, at the row the
bounce assigns to it, so row `r` holds `text[i]` where the assignment is `r`
and the sentinel everywhere else. -/
def create_fence (text : PyStr) (rails : Int) : List PyStr :=
  let assign := railSeq rails text.length
  (intRange 0 (rails - 1)).map fun r =>
    (List.zip text assign).map fun p => if p.2 = r then p.1 else 10

/-- Source `railfence.encrypt`; `none` models the two `ValueError` guards.
The read-out keeps every cell different from the `'\n'` sentinel, rail by
rail. -/
def encrypt (text : PyStr) (rails : Int) : Option PyStr :=
  if rails < 2 then none
  else if rails > (text.length : Int) then none
  else some ((create_fence text rails).flatMap (fun rail => rail.filter (fun c => c ≠ 10)))

end railfence

namespace route

/-- Source `route.spiral_inward`'s while loop over the shrinking rectangle
`[top, bottom] × [left, right]`. -/
def spiral_inwardGo (top bottom left right : Int) : List (Int × Int) :=
  if h : top ≤ bottom ∧ left ≤ right then
    let seg1 := (intRange left right).map (fun i => (top, i))
    let top1 := top + 1
    let seg2 := (intRange top1 bottom).map (fun i => (i, right))
    let right1 := right - 1
    let seg3 :=
      if top1 ≤ bottom then (intRange left right1).reverse.map (fun i => (bottom, i)) else []
    let bottom1 := if top1 ≤ bottom then bottom - 1 else bottom
    let seg4 :=
      if left ≤ right1 then (intRange top1 bottom1).reverse.map (fun i => (i, left)) else []
    let left1 := if left ≤ right1 then left + 1 else left
    seg1 ++ seg2 ++ seg3 ++ seg4 ++ spiral_inwardGo top1 bottom1 left1 right1
  else []
  termination_by (bottom + 1 - top).toNat
  decreasing_by
    obtain ⟨h1, h2⟩ := h
    split <;> omega

/-- Source `route.spiral_inward`. -/
def spiral_inward (rows cols : Int) : List (Int × Int) :=
  spiral_inwardGo 0 (rows - 1) 0 (cols - 1)

/-- Source `route.spiral_outward`: the reversed inward spiral. -/
def spiral_outward (rows cols : Int) : List (Int × Int) :=
  (spiral_inward rows cols).reverse

/-- Source `route.snake_pattern`. -/
def snake_pattern (rows cols : Int) : List (Int × Int) :=
  (intRange 0 (rows - 1)).flatMap fun i =>
    if i % 2 = 0 then (intRange 0 (cols - 1)).map (fun j => (i, j))
    else (intRange 0 (cols - 1)).reverse.map (fun j => (i, j))

/-- Source `route.diagonal_pattern`. -/
def diagonal_pattern (rows cols : Int) : List (Int × Int) :=
  (intRange 0 (rows + cols - 2)).flatMap fun sum_idx =>
    (intRange 0 (rows - 1)).filterMap fun i =>
      let j := sum_idx - i
      if 0 ≤ j ∧ j < cols then some (i, j) else none

end route

namespace myszkowski

/-- The `defaultdict` append of `get_column_groups`: extend the entry of `ch`
with `i`, or create it at the end (insertion order). -/
def groupsAdd (groups : List (Nat × List Nat)) (ch : Nat) (i : Nat) :
    List (Nat × List Nat) :=
  if groups.any (fun g => g.1 == ch) then
    groups.map (fun g => if g.1 == ch then (g.1, g.2 ++ [i]) else g)
  else groups ++ [(ch, [i])]

/-- Stable insertion by ascending key character, modelling Python's
`sorted(groups.items())` (keys are distinct single characters, so comparison
is by code point). -/
def insertSorted (p : Nat × List Nat) : List (Nat × List Nat) → List (Nat × List Nat)
  | [] => [p]
  | q :: qs => if p.1 < q.1 then p :: q :: qs else q :: insertSorted p qs

/-- Sort an association list by ascending key. -/
def sortByKey (l : List (Nat × List Nat)) : List (Nat × List Nat) :=
  l.foldr insertSorted []

/-- Source `myszkowski.get_column_groups`: group column indices by key letter,
then sort the groups by letter. -/
def get_column_groups (key : PyStr) : List (Nat × List Nat) :=
  sortByKey (key.enum.foldl (fun gs p => groupsAdd gs p.2 p.1) [])

/-- Grid cell state during `myszkowski.decrypt`'s fill: `none` is the initial
`''` cell, which contributes nothing to the final `''.join`. -/
abbrev MGrid := List (List (Option Nat))

/-- Fill one column of the grid top to bottom with consecutive ciphertext
characters, advancing the running index: the inner
`for row in range(rows)` loop. -/
def fillColumn (text : PyStr) (rows : Nat) (st : MGrid × Nat) (col : Nat) : MGrid × Nat :=
  (List.range rows).foldl
    (fun st2 row =>
      (st2.1.set row ((st2.1.getD row []).set col (some (text.getD st2.2 0))), st2.2 + 1))
    st

/-- The cell of a grid at row `r`, column `c` (out-of-range reads give the
initial empty cell). -/
def cellAt (g : MGrid) (r c : Nat) : Option Nat := (g.getD r []).getD c none

/-- Source `myszkowski.decrypt`; `none` models the `ZeroDivisionError` of
`len(text) // len(key)` on an empty key.  No length validation is performed:
`rows` is the floor of `len(text) / len(key)` and only the first
`rows * cols` ciphertext characters are consumed (the subscript `text[index]`
stays below `rows * cols ≤ len(text)`, modelled with `getD`). -/
def decrypt (text key : PyStr) : Option PyStr :=
  if key.length = 0 then none
  else
    let cols := key.length
    let rows := text.length / cols
    let grid0 : MGrid := List.replicate rows (List.replicate cols none)
    let order := (get_column_groups key).flatMap (fun g => g.2)
    let filled := (order.foldl (fillColumn text rows) (grid0, 0)).1
    some (filled.flatMap (fun row => row.filterMap id))

end myszkowski

namespace ngram

/-- Python `s.isalpha()` for a whole string: non-empty and letters only. -/
def pyIsAlphaStr (s : PyStr) : Bool := !s.isEmpty && s.all isAlphaCp

/-- The `sequences` dictionary update inside `find_repeated_sequences`:
append position `i` to the entry of `seq`, or create it (insertion order). -/
def addPos (d : List (PyStr × List Nat)) (k : PyStr) (i : Nat) :
    List (PyStr × List Nat) :=
  if d.any (fun e => e.1 == k) then
    d.map (fun e => if e.1 == k then (e.1, e.2 ++ [i]) else e)
  else d ++ [(k, [i])]

/-- Python `dict.update`: replace the value of an existing key in place,
append unknown keys in order. -/
def updateDict (d : List (PyStr × List Nat)) : List (PyStr × List Nat) → List (PyStr × List Nat)
  | [] => d
  | e :: es =>
    updateDict
      (if d.any (fun o => o.1 == e.1) then d.map (fun o => if o.1 == e.1 then e else o)
       else d ++ [e])
      es

/-- Inner loop of `find_repeated_sequences` for one sequence length: scan all
slices `text[i : i + length]`, keeping only fully alphabetic ones. -/
def innerScan (t : PyStr) (length : Int) : List (PyStr × List Nat) :=
  (intRange 0 ((t.length : Int) - length)).foldl
    (fun seqs i =>
      let seq := (t.drop i.toNat).take length.toNat
      if pyIsAlphaStr seq then addPos seqs seq i.toNat else seqs)
    []

/-- Source `ngram.find_repeated_sequences`. -/
def find_repeated_sequences (text : PyStr) (min_length max_length : Int) :
    List (PyStr × List Nat) :=
  let t := upperStr text
  (intRange min_length max_length).foldl
    (fun acc length =>
      updateDict acc ((innerScan t length).filter (fun e => 1 < e.2.length)))
    []

/-- Source `ngram.index_of_coincidence`, with the float division modelled
exactly over `ℚ`.  `Counter(text).values()` is the multiset of per-letter
counts, summed here over the distinct letters. -/
def index_of_coincidence (text : PyStr) : ℚ :=
  let t := (upperStr text).filter isAlphaCp
  if t.length ≤ 1 then 0
  else
    let n : ℚ := t.length
    ((t.dedup.map (fun c => (t.count c : ℚ) * ((t.count c : ℚ) - 1))).sum) / (n * (n - 1))

end ngram

namespace hill

/-- The 3×3 key matrix `diag(100000001, 100000001, 3)` on which the source's
floating-point determinant rounds incorrectly. -/
def failingKey : Matrix (Fin 3) (Fin 3) ℤ :=
  Matrix.of ![![100000001, 0, 0], ![0, 100000001, 0], ![0, 0, 3]]

end hill

/-- The case/passthrough contract of the substitution ciphers: same length,
non-alphabetic characters unchanged in place, alphabetic characters mapped to
alphabetic characters of the same case in place. -/
def CasePreserving (input output : PyStr) : Prop :=
  output.length = input.length ∧
  ∀ i < input.length,
    (isAlphaCp (input.getD i 0) = false → output.getD i 0 = input.getD i 0) ∧
    (isAlphaCp (input.getD i 0) = true →
      isAlphaCp (output.getD i 0) = true ∧
      isUpperCp (output.getD i 0) = isUpperCp (input.getD i 0))

/-- Pointwise form of the case/passthrough contract, relating one input
character to the corresponding output character. -/
def CPrel (c o : Nat) : Prop :=
  (isAlphaCp c = false → o = c) ∧
  (isAlphaCp c = true → isAlphaCp o = true ∧ isUpperCp o = isUpperCp c)

end Ciphers

namespace Ciphers

theorem isUpperCp_iff (c : Nat) : isUpperCp c = true ↔ 65 ≤ c ∧ c ≤ 90 := by
  simp [isUpperCp]

theorem isLowerCp_iff (c : Nat) : isLowerCp c = true ↔ 97 ≤ c ∧ c ≤ 122 := by
  simp [isLowerCp]

theorem isAlphaCp_iff (c : Nat) :
    isAlphaCp c = true ↔ (65 ≤ c ∧ c ≤ 90) ∨ (97 ≤ c ∧ c ≤ 122) := by
  simp [isAlphaCp, isUpperCp, isLowerCp]

theorem isAlphaCp_upperCp (c : Nat) : isAlphaCp (upperCp c) = isAlphaCp c := by
  rw [Bool.eq_iff_iff, isAlphaCp_iff, isAlphaCp_iff]
  unfold upperCp
  rw [isLowerCp]
  split <;> rename_i h <;> simp at h <;> omega

theorem length_filter_alpha_upperStr (text : PyStr) :
    ((upperStr text).filter isAlphaCp).length = (text.filter isAlphaCp).length := by
  unfold upperStr
  rw [← List.countP_eq_length_filter, ← List.countP_eq_length_filter, List.countP_map]
  exact List.countP_congr (fun c _ => by simp [Function.comp, isAlphaCp_upperCp])

/-- C8: `index_of_coincidence` is total at the degenerate boundary — for every
text with at most one alphabetic character it returns exactly `0.0`; the
division by `n * (n - 1)` is behind the `len(text) <= 1` guard. -/
theorem ioc_degenerate_zero (text : PyStr)
    (h : (text.filter isAlphaCp).length ≤ 1) :
    ngram.index_of_coincidence text = 0 := by
  unfold ngram.index_of_coincidence
  rw [if_pos]
  rw [length_filter_alpha_upperStr]
  exact h

/-- Witness for C8 at the concrete text `"1a!"`. -/
theorem ioc_degenerate_zero_witness :
    (([49, 97, 33] : PyStr).filter isAlphaCp).length ≤ 1 ∧
    ngram.index_of_coincidence [49, 97, 33] = 0 :=
  ⟨by decide, ioc_degenerate_zero [49, 97, 33] (by decide)⟩

/-- C2: the exact-arithmetic facts behind the Hill failing input.  The exact
determinant of `failingKey` is `30000000600000003`, an odd number that is
`1 (mod 26)` and coprime with 26, so the matrix is a valid Hill key and its
exact modular inverse exists.  The source instead computes the determinant
with `np.linalg.det` in IEEE-754 doubles: every double of this magnitude
(beyond `2^53`) is an even integer, and the last conjunct shows that every
even integer has a residue mod 26 different from the true determinant's, so
`int(round(...))` can never recover a correct determinant and
`pow(det % 26, -1, 26)` raises on this valid key. -/
theorem hill_failing_det_exact :
    hill.failingKey.det = 30000000600000003 ∧
    (30000000600000003 : ℤ) % 26 = 1 ∧
    Int.gcd (30000000600000003 % 26) 26 = 1 ∧
    ∀ k : ℤ, (2 * k) % 26 ≠ (30000000600000003 : ℤ) % 26 := by
  refine ⟨?_, by decide, by decide, ?_⟩
  · rw [show hill.failingKey =
      Matrix.of ![![100000001, 0, 0], ![0, 100000001, 0], ![0, 0, 3]] from rfl]
    rw [Matrix.det_fin_three]
    norm_num
  · intro k hk
    omega

/-- C1: the Autokey round-trip fails on the code.  For `text = "AB C"` and
priming key `"K"`, encryption keys position 3 with the plaintext character
at position 2 (the space), but decryption keys it with `result[1] = 'B'`
(only alphabetic ciphertext positions advance `text_index`), so
`decrypt(encrypt("AB C", "K"), "K") = "AB U" ≠ "AB C"`. -/
theorem autokey_roundtrip_counterexample :
    autokey.decrypt (autokey.encrypt [65, 66, 32, 67] [75]) [75] = [65, 66, 32, 85] ∧
    ([65, 66, 32, 85] : PyStr) ≠ [65, 66, 32, 67] := by
  decide

/-- C5: Myszkowski `decrypt` does not validate the ciphertext length.  For
`text = "ABCDE"` (length 5) and `key = "AB"` (length 2, which does not divide
5) it silently drops the trailing character and returns `"ACBD"` instead of
raising. -/
theorem myszkowski_no_length_check_counterexample :
    myszkowski.decrypt [65, 66, 67, 68, 69] [65, 66] = some [65, 67, 66, 68] ∧
    ([65, 66, 67, 68, 69] : PyStr).length % ([65, 66] : PyStr).length ≠ 0 := by
  decide

/-- C3: Rail Fence `encrypt` does not uppercase or filter its input.  For
`text = "ab c"` and `rails = 2` it returns `"a bc"`, which keeps the
lowercase letters and the space and is not a rearrangement of the uppercased
alphanumeric-filtered copy `"ABC"`. -/
theorem railfence_filtering_counterexample :
    railfence.encrypt [97, 98, 32, 99] 2 = some [97, 32, 98, 99] ∧
    ¬ List.Perm [97, 32, 98, 99] ((upperStr [97, 98, 32, 99]).filter isAlnumCp) ∧
    ¬ (∀ c ∈ ([97, 32, 98, 99] : PyStr), isUpperCp c = true) := by
  refine ⟨by decide, by decide, by decide⟩

theorem isUpperCp_eq_false_iff (c : Nat) :
    isUpperCp c = false ↔ c < 65 ∨ 90 < c := by
  simp [isUpperCp]
  omega

theorem emod26_nonneg (x : Int) : 0 ≤ x % 26 := Int.emod_nonneg x (by norm_num)

theorem emod26_lt (x : Int) : x % 26 < 26 := Int.emod_lt_of_pos x (by norm_num)

theorem recase_props (c : Nat) (hc : isAlphaCp c = true) (e : Int)
    (h0 : 0 ≤ e) (h1 : e < 26) :
    isAlphaCp (recase c e) = true ∧ isUpperCp (recase c e) = isUpperCp c := by
  unfold recase
  by_cases hu : isUpperCp c = true
  · rw [if_pos hu, hu]
    refine ⟨?_, ?_⟩
    · rw [isAlphaCp_iff]; omega
    · rw [isUpperCp_iff]; omega
  · have hu' : isUpperCp c = false := Bool.not_eq_true _ |>.mp hu
    rw [if_neg hu, hu']
    refine ⟨?_, ?_⟩
    · rw [isAlphaCp_iff]; omega
    · rw [isUpperCp_eq_false_iff]; omega

theorem base_shift_props (c : Nat) (hc : isAlphaCp c = true) (z : Int) :
    isAlphaCp (((if isUpperCp c then (65 : Int) else 97) + z % 26).toNat) = true ∧
    isUpperCp (((if isUpperCp c then (65 : Int) else 97) + z % 26).toNat) = isUpperCp c := by
  have h0 := emod26_nonneg z
  have h1 := emod26_lt z
  by_cases hu : isUpperCp c = true
  · rw [if_pos hu, hu]
    refine ⟨?_, ?_⟩
    · rw [isAlphaCp_iff]; omega
    · rw [isUpperCp_iff]; omega
  · have hu' : isUpperCp c = false := Bool.not_eq_true _ |>.mp hu
    rw [if_neg hu, hu']
    refine ⟨?_, ?_⟩
    · rw [isAlphaCp_iff]; omega
    · rw [isUpperCp_eq_false_iff]; omega

theorem CPrel_refl (c : Nat) : CPrel c c :=
  ⟨fun _ => rfl, fun h => ⟨h, rfl⟩⟩

theorem CPrel_of_alpha (c o : Nat) (ha : isAlphaCp c = true)
    (h1 : isAlphaCp o = true) (h2 : isUpperCp o = isUpperCp c) : CPrel c o :=
  ⟨fun h => Bool.noConfusion (ha.symm.trans h), fun _ => ⟨h1, h2⟩⟩

theorem CPrel_recase (c : Nat) (ha : isAlphaCp c = true) (x : Int) :
    CPrel c (recase c (x % 26)) :=
  CPrel_of_alpha c _ ha (recase_props c ha _ (emod26_nonneg x) (emod26_lt x)).1
    (recase_props c ha _ (emod26_nonneg x) (emod26_lt x)).2

theorem casePreserving_of_forall₂ {t o : PyStr} (h : List.Forall₂ CPrel t o) :
    CasePreserving t o := by
  obtain ⟨hlen, hget⟩ := List.forall₂_iff_get.mp h
  refine ⟨hlen.symm, ?_⟩
  intro i hi
  have hi2 : i < o.length := hlen ▸ hi
  rw [List.getD_eq_getElem t 0 hi, List.getD_eq_getElem o 0 hi2]
  exact hget i hi hi2

theorem forall₂_CPrel_map (f : Nat → Nat) (h : ∀ c, CPrel c (f c)) (t : PyStr) :
    List.Forall₂ CPrel t (t.map f) := by
  induction t with
  | nil => exact List.Forall₂.nil
  | cons c cs ih => exact List.Forall₂.cons (h c) ih

theorem forall₂_CPrel_zipWith (f : Nat → Nat → Nat) (h : ∀ c k, CPrel c (f c k)) :
    ∀ (t ks : PyStr), t.length ≤ ks.length → List.Forall₂ CPrel t (List.zipWith f t ks)
  | [], _, _ => List.Forall₂.nil
  | c :: cs, k :: kss, hlen =>
    List.Forall₂.cons (h c k) (forall₂_CPrel_zipWith f h cs kss (by simpa using hlen))
  | c :: cs, [], hlen => by simp at hlen

theorem caesar_char_CPrel (shift : Int) (c : Nat) :
    CPrel c (caesar.encryptChar shift c) := by
  unfold caesar.encryptChar
  by_cases ha : isAlphaCp c = true
  · rw [if_pos ha]
    exact CPrel_of_alpha c _ ha (base_shift_props c ha _).1 (base_shift_props c ha _).2
  · rw [if_neg ha]
    exact CPrel_refl c

theorem atbash_char_CPrel (c : Nat) : CPrel c (atbash.encryptChar c) := by
  unfold atbash.encryptChar
  by_cases ha : isAlphaCp c = true
  · rw [if_pos ha]
    have hrange := (isAlphaCp_iff c).mp ha
    by_cases hu : isUpperCp c = true
    · rw [if_pos hu]
      have hr := (isUpperCp_iff c).mp hu
      refine CPrel_of_alpha c _ ha ?_ ?_
      · rw [isAlphaCp_iff]; omega
      · rw [hu, isUpperCp_iff]; omega
    · have hu' : isUpperCp c = false := Bool.not_eq_true _ |>.mp hu
      have hr : ¬(65 ≤ c ∧ c ≤ 90) := fun hh => hu ((isUpperCp_iff c).mpr hh)
      rw [if_neg hu]
      refine CPrel_of_alpha c _ ha ?_ ?_
      · rw [isAlphaCp_iff]; omega
      · rw [hu', isUpperCp_eq_false_iff]; omega
  · rw [if_neg ha]
    exact CPrel_refl c

theorem affine_char_CPrel (a b : Int) (c : Nat) :
    CPrel c (affine.encryptChar a b c) := by
  unfold affine.encryptChar
  by_cases ha : isAlphaCp c = true
  · rw [if_pos ha]
    exact CPrel_recase c ha _
  · rw [if_neg ha]
    exact CPrel_refl c

theorem vigenere_char_CPrel (c k : Nat) : CPrel c (vigenere.encryptChar c k) := by
  unfold vigenere.encryptChar
  by_cases ha : isAlphaCp c = true
  · rw [if_pos ha]; exact CPrel_recase c ha _
  · rw [if_neg ha]; exact CPrel_refl c

theorem beaufort_char_CPrel (c k : Nat) : CPrel c (beaufort.beaufortChar c k) := by
  unfold beaufort.beaufortChar
  by_cases ha : isAlphaCp c = true
  · rw [if_pos ha]; exact CPrel_recase c ha _
  · rw [if_neg ha]; exact CPrel_refl c

theorem autokey_char_CPrel (c k : Nat) : CPrel c (autokey.encryptChar c k) := by
  unfold autokey.encryptChar
  by_cases ha : isAlphaCp c = true
  · rw [if_pos ha]; exact CPrel_recase c ha _
  · rw [if_neg ha]; exact CPrel_refl c

theorem august_encryptGo_forall₂ (t : PyStr) :
    ∀ shift : Int, List.Forall₂ CPrel t (august.encryptGo shift t) := by
  induction t with
  | nil => intro shift; exact List.Forall₂.nil
  | cons c cs ih =>
    intro shift
    simp only [august.encryptGo]
    by_cases ha : isAlphaCp c = true
    · rw [if_pos ha]
      exact List.Forall₂.cons
        (CPrel_of_alpha c _ ha (base_shift_props c ha _).1 (base_shift_props c ha _).2)
        (ih (shift + 1))
    · rw [if_neg ha]
      exact List.Forall₂.cons (CPrel_refl c) (ih shift)

theorem vigenere_prepare_keyGo_some (key : PyStr) (hk : ¬ key.length = 0) :
    ∀ (t : PyStr) (ki : Nat),
      ∃ ks, vigenere.prepare_keyGo key ki t = some ks ∧ ks.length = t.length := by
  intro t
  induction t with
  | nil => intro ki; exact ⟨[], rfl, rfl⟩
  | cons c cs ih =>
    intro ki
    simp only [vigenere.prepare_keyGo]
    by_cases ha : isAlphaCp c = true
    · rw [if_pos ha, if_neg hk]
      obtain ⟨ks, hks, hl⟩ := ih (ki + 1)
      rw [hks]
      exact ⟨_, rfl, by simp [hl]⟩
    · rw [if_neg ha]
      obtain ⟨ks, hks, hl⟩ := ih ki
      rw [hks]
      exact ⟨_, rfl, by simp [hl]⟩

theorem beaufort_prepare_keyGo_some (key : PyStr) (hk : ¬ key.length = 0) :
    ∀ (t : PyStr) (ki : Nat),
      ∃ ks, beaufort.prepare_keyGo key ki t = some ks ∧ ks.length = t.length := by
  intro t
  induction t with
  | nil => intro ki; exact ⟨[], rfl, rfl⟩
  | cons c cs ih =>
    intro ki
    simp only [beaufort.prepare_keyGo]
    by_cases ha : isAlphaCp c = true
    · rw [if_pos ha, if_neg hk]
      obtain ⟨ks, hks, hl⟩ := ih (ki + 1)
      rw [hks]
      exact ⟨_, rfl, by simp [hl]⟩
    · rw [if_neg ha]
      obtain ⟨ks, hks, hl⟩ := ih ki
      rw [hks]
      exact ⟨_, rfl, by simp [hl]⟩

theorem autokey_prepare_key_length (t pk : PyStr) :
    t.length ≤ (autokey.prepare_key t pk).length := by
  unfold autokey.prepare_key upperStr
  simp only [List.length_append, List.length_map, List.length_take]
  omega

theorem affine_gcd_5_26 : affine.gcd 5 26 = 1 := by
  rw [affine.gcd]; norm_num
  rw [affine.gcd]; norm_num
  rw [affine.gcd]; norm_num
  rw [affine.gcd]; norm_num

/-- C6: case and passthrough preservation for every substitution cipher of
the catalogue (Caesar, Affine with `gcd(a,26)=1`, Atbash, Vigenère, Beaufort
and Autokey given their keyword, August): the output has the input's length,
non-alphabetic characters pass through in place, and alphabetic characters
map to alphabetic characters of the same case in place. -/
theorem substitution_ciphers_case_passthrough :
    (∀ (text : PyStr) (shift : Int), CasePreserving text (caesar.encrypt text shift)) ∧
    (∀ (text : PyStr) (a b : Int), affine.gcd a 26 = 1 →
      ∃ s, affine.encrypt text a b = some s ∧ CasePreserving text s) ∧
    (∀ text : PyStr, CasePreserving text (atbash.encrypt text)) ∧
    (∀ (text key : PyStr), key ≠ [] →
      ∃ s, vigenere.encrypt text key = some s ∧ CasePreserving text s) ∧
    (∀ (text key : PyStr), key ≠ [] →
      ∃ s, beaufort.beaufort text key = some s ∧ CasePreserving text s) ∧
    (∀ (text priming_key : PyStr), CasePreserving text (autokey.encrypt text priming_key)) ∧
    (∀ (text : PyStr) (initial_shift : Int),
      CasePreserving text (august.encrypt text initial_shift)) := by
  refine ⟨?_, ?_, ?_, ?_, ?_, ?_, ?_⟩
  · intro text shift
    exact casePreserving_of_forall₂ (forall₂_CPrel_map _ (caesar_char_CPrel shift) text)
  · intro text a b hgcd
    refine ⟨text.map (affine.encryptChar a b), ?_, ?_⟩
    · unfold affine.encrypt
      rw [if_neg (by simp [hgcd])]
    · exact casePreserving_of_forall₂ (forall₂_CPrel_map _ (affine_char_CPrel a b) text)
  · intro text
    exact casePreserving_of_forall₂ (forall₂_CPrel_map _ atbash_char_CPrel text)
  · intro text key hkey
    have hk : ¬ (upperStr key).length = 0 := by
      simp [upperStr, List.length_eq_zero]
      exact hkey
    obtain ⟨ks, hks, hl⟩ := vigenere_prepare_keyGo_some (upperStr key) hk text 0
    refine ⟨List.zipWith vigenere.encryptChar text ks, ?_, ?_⟩
    · unfold vigenere.encrypt vigenere.prepare_key
      rw [hks]
      rfl
    · exact casePreserving_of_forall₂
        (forall₂_CPrel_zipWith _ vigenere_char_CPrel text ks (le_of_eq hl.symm))
  · intro text key hkey
    have hk : ¬ (upperStr key).length = 0 := by
      simp [upperStr, List.length_eq_zero]
      exact hkey
    obtain ⟨ks, hks, hl⟩ := beaufort_prepare_keyGo_some (upperStr key) hk text 0
    refine ⟨List.zipWith beaufort.beaufortChar text ks, ?_, ?_⟩
    · unfold beaufort.beaufort beaufort.prepare_key
      rw [hks]
      rfl
    · exact casePreserving_of_forall₂
        (forall₂_CPrel_zipWith _ beaufort_char_CPrel text ks (le_of_eq hl.symm))
  · intro text priming_key
    exact casePreserving_of_forall₂
      (forall₂_CPrel_zipWith _ autokey_char_CPrel text _
        (autokey_prepare_key_length text priming_key))
  · intro text initial_shift
    exact casePreserving_of_forall₂ (august_encryptGo_forall₂ text initial_shift)

/-- Witness for C6: each cipher applied to the concrete text `"Hi, you!"`
with concrete valid keys. -/
theorem substitution_ciphers_case_passthrough_witness :
    CasePreserving [72, 105, 44, 32, 121, 111, 117, 33]
      (caesar.encrypt [72, 105, 44, 32, 121, 111, 117, 33] 3) ∧
    (affine.gcd 5 26 = 1 ∧
      ∃ s, affine.encrypt [72, 105, 44, 32, 121, 111, 117, 33] 5 8 = some s ∧
        CasePreserving [72, 105, 44, 32, 121, 111, 117, 33] s) ∧
    CasePreserving [72, 105, 44, 32, 121, 111, 117, 33]
      (atbash.encrypt [72, 105, 44, 32, 121, 111, 117, 33]) ∧
    (∃ s, vigenere.encrypt [72, 105, 44, 32, 121, 111, 117, 33] [75, 101, 121] = some s ∧
      CasePreserving [72, 105, 44, 32, 121, 111, 117, 33] s) ∧
    (∃ s, beaufort.beaufort [72, 105, 44, 32, 121, 111, 117, 33] [75, 101, 121] = some s ∧
      CasePreserving [72, 105, 44, 32, 121, 111, 117, 33] s) ∧
    CasePreserving [72, 105, 44, 32, 121, 111, 117, 33]
      (autokey.encrypt [72, 105, 44, 32, 121, 111, 117, 33] [75, 101, 121]) ∧
    CasePreserving [72, 105, 44, 32, 121, 111, 117, 33]
      (august.encrypt [72, 105, 44, 32, 121, 111, 117, 33] 1) :=
  ⟨substitution_ciphers_case_passthrough.1 _ 3,
   ⟨affine_gcd_5_26,
    substitution_ciphers_case_passthrough.2.1 _ 5 8 affine_gcd_5_26⟩,
   substitution_ciphers_case_passthrough.2.2.1 _,
   substitution_ciphers_case_passthrough.2.2.2.1 _ _ (by decide),
   substitution_ciphers_case_passthrough.2.2.2.2.1 _ _ (by decide),
   substitution_ciphers_case_passthrough.2.2.2.2.2.1 _ _,
   substitution_ciphers_case_passthrough.2.2.2.2.2.2 _ 1⟩

theorem mem_intRange {x lo hi : Int} : x ∈ intRange lo hi ↔ lo ≤ x ∧ x ≤ hi := by
  unfold intRange
  rw [List.mem_map]
  constructor
  · rintro ⟨k, hk, rfl⟩
    rw [List.mem_range] at hk
    omega
  · intro h
    exact ⟨(x - lo).toNat, List.mem_range.mpr (by omega), by omega⟩

theorem flatMap_congr_mem {α β : Type} {l : List α} {f g : α → List β}
    (h : ∀ a ∈ l, f a = g a) : l.flatMap f = l.flatMap g := by
  induction l with
  | nil => rfl
  | cons a l ih =>
    simp only [List.flatMap_cons]
    rw [h a (by simp), ih (fun a ha => h a (by simp [ha]))]

theorem filter_beq_of_filter_ne {l : List (Nat × Int)} {r R : Int} (hne : r ≠ R) :
    (l.filter (fun p => !(p.2 == R))).filter (fun p => p.2 == r) =
      l.filter (fun p => p.2 == r) := by
  rw [List.filter_filter]
  apply List.filter_congr
  intro p _
  by_cases h : p.2 = r
  · simp [h, hne]
  · simp [h]

theorem range_flatMap_filter_perm :
    ∀ (R : Nat) (l : List (Nat × Int)),
      (∀ p ∈ l, 0 ≤ p.2 ∧ p.2 < (R : Int)) →
      List.Perm ((List.range R).flatMap (fun r => l.filter (fun p => p.2 == (r : Int)))) l := by
  intro R
  induction R with
  | zero =>
    intro l h
    cases l with
    | nil => simp
    | cons p l' =>
      have := h p (by simp)
      simp only [Nat.cast_zero] at this
      omega
  | succ R ih =>
    intro l h
    rw [List.range_succ, List.flatMap_append]
    simp only [List.flatMap_cons, List.flatMap_nil, List.append_nil]
    have hcongr :
        (List.range R).flatMap (fun r => l.filter (fun p => p.2 == (r : Int))) =
        (List.range R).flatMap
          (fun r => (l.filter (fun p => !(p.2 == (R : Int)))).filter
            (fun p => p.2 == (r : Int))) := by
      apply flatMap_congr_mem
      intro r hr
      have hrR : (r : Int) ≠ (R : Int) := by
        have := List.mem_range.mp hr
        omega
      exact (filter_beq_of_filter_ne hrR).symm
    rw [hcongr]
    have hsub : ∀ p ∈ l.filter (fun p => !(p.2 == (R : Int))), 0 ≤ p.2 ∧ p.2 < (R : Int) := by
      intro p hp
      rw [List.mem_filter] at hp
      have h1 := h p hp.1
      have h2 := hp.2
      simp only [Bool.not_eq_true', beq_eq_false_iff_ne, ne_eq] at h2
      push_cast at h1 ⊢
      omega
    refine ((ih _ hsub).append_right _).trans ?_
    refine (List.perm_append_comm).trans ?_
    exact List.filter_append_perm _ l

theorem railSeqGo_length (rails : Int) :
    ∀ (n : Nat) (rd : Int × Int), (railfence.railSeqGo rails rd n).length = n := by
  intro n
  induction n with
  | zero => intro rd; rfl
  | succ n ih => intro rd; simp [railfence.railSeqGo, ih]

theorem stepRail_invariant (rails : Int) (h2 : 2 ≤ rails) (rd : Int × Int)
    (h0 : 0 ≤ rd.1) (h1 : rd.1 < rails) (hd : rd.2 = 1 ∨ rd.2 = -1) :
    0 ≤ (railfence.stepRail rails rd).1 ∧ (railfence.stepRail rails rd).1 < rails ∧
      ((railfence.stepRail rails rd).2 = 1 ∨ (railfence.stepRail rails rd).2 = -1) := by
  obtain ⟨rail, dir⟩ := rd
  simp only at h0 h1 hd
  have hval : railfence.stepRail rails (rail, dir) =
      ((rail + if rail = 0 then 1 else if rail = rails - 1 then -1 else dir),
       (if rail = 0 then 1 else if rail = rails - 1 then -1 else dir)) := rfl
  rw [hval]
  dsimp only
  split_ifs with ha hb
  · omega
  · omega
  · rcases hd with hd | hd <;> rw [hd] <;> omega

theorem railSeqGo_bounds (rails : Int) (h2 : 2 ≤ rails) :
    ∀ (n : Nat) (rd : Int × Int), 0 ≤ rd.1 → rd.1 < rails → (rd.2 = 1 ∨ rd.2 = -1) →
      ∀ x ∈ railfence.railSeqGo rails rd n, 0 ≤ x ∧ x < rails := by
  intro n
  induction n with
  | zero => intro rd _ _ _ x hx; simp [railfence.railSeqGo] at hx
  | succ n ih =>
    intro rd h0 h1 hd x hx
    simp only [railfence.railSeqGo, List.mem_cons] at hx
    rcases hx with rfl | hx
    · exact ⟨h0, h1⟩
    · obtain ⟨s0, s1, s2⟩ := stepRail_invariant rails h2 rd h0 h1 hd
      exact ih (railfence.stepRail rails rd) s0 s1 s2 x hx

theorem railSeq_bounds (rails : Int) (h2 : 2 ≤ rails) (n : Nat) :
    ∀ x ∈ railfence.railSeq rails n, 0 ≤ x ∧ x < rails :=
  railSeqGo_bounds rails h2 n (0, 1) (by norm_num) (by omega) (Or.inl rfl)

theorem rowfilter_eq (r : Int) :
    ∀ l : List (Nat × Int),
      ((l.map (fun p => if p.2 = r then p.1 else 10)).filter (fun c => c ≠ 10)) =
      (((l.filter (fun p => p.2 == r)).map Prod.fst).filter (fun c => c ≠ 10)) := by
  intro l
  induction l with
  | nil => rfl
  | cons p l ih =>
    by_cases hr : p.2 = r
    · by_cases h10 : p.1 = 10
      · simp [hr, h10]
        simpa using ih
      · simp [hr, h10]
        simpa [h10] using ih
    · simp [hr]
      simpa using ih

theorem railfence_encrypt_eq_perm (text : PyStr) (rails : Int)
    (h2 : 2 ≤ rails) (hle : rails ≤ (text.length : Int)) :
    railfence.encrypt text rails =
      some ((railfence.create_fence text rails).flatMap
        (fun rail => rail.filter (fun c => c ≠ 10))) ∧
    List.Perm
      ((railfence.create_fence text rails).flatMap (fun rail => rail.filter (fun c => c ≠ 10)))
      (text.filter (fun c => c ≠ 10)) := by
  constructor
  · unfold railfence.encrypt
    rw [if_neg (by omega), if_neg (by omega)]
  · unfold railfence.create_fence
    have hlen : (railfence.railSeq rails text.length).length = text.length :=
      railSeqGo_length rails text.length (0, 1)
    have hbounds := railSeq_bounds rails h2 text.length
    set assign := railfence.railSeq rails text.length with hassign
    set zl := List.zip text assign with hzl
    have hR : ((rails - 1 + 1 - 0).toNat : Int) = rails := by omega
    have hstep1 :
        (intRange 0 (rails - 1)).flatMap
          (fun r => ((zl.map (fun p => if p.2 = r then p.1 else 10)).filter
            (fun c => c ≠ 10))) =
        (List.range (rails - 1 + 1 - 0).toNat).flatMap
          (fun k => ((zl.map (fun p => if p.2 = (0 + (k : Int)) then p.1 else 10)).filter
            (fun c => c ≠ 10))) := by
      unfold intRange
      rw [List.flatMap_map]
    have hstep2 :
        (List.range (rails - 1 + 1 - 0).toNat).flatMap
          (fun k => ((zl.map (fun p => if p.2 = (0 + (k : Int)) then p.1 else 10)).filter
            (fun c => c ≠ 10))) =
        (List.range (rails - 1 + 1 - 0).toNat).flatMap
          (fun k => (((zl.filter (fun p => p.2 == (k : Int))).map Prod.fst).filter
            (fun c => c ≠ 10))) := by
      apply flatMap_congr_mem
      intro k _
      rw [show (0 + (k : Int)) = (k : Int) by omega]
      exact rowfilter_eq (k : Int) zl
    have hmap : (List.map (fun r => List.map (fun p => if p.2 = r then p.1 else 10) zl)
        (intRange 0 (rails - 1))).flatMap (fun rail => rail.filter (fun c => c ≠ 10)) =
        (intRange 0 (rails - 1)).flatMap
          (fun r => ((zl.map (fun p => if p.2 = r then p.1 else 10)).filter
            (fun c => c ≠ 10))) := by
      rw [List.flatMap_map]
    rw [hmap, hstep1, hstep2, ← List.filter_flatMap, ← List.map_flatMap]
    have hpart : List.Perm
        ((List.range (rails - 1 + 1 - 0).toNat).flatMap
          (fun k => zl.filter (fun p => p.2 == (k : Int)))) zl := by
      apply range_flatMap_filter_perm
      intro p hp
      have hmem : p.2 ∈ assign := List.of_mem_zip hp |>.2
      have := hbounds p.2 hmem
      omega
    refine (List.Perm.filter _ (List.Perm.map _ hpart)).trans ?_
    rw [List.map_fst_zip text assign (le_of_eq hlen.symm)]

/-- C3 (amended): Rail Fence `encrypt`, for `2 ≤ rails ≤ len(text)`, returns a
rearrangement of the input text with every `'\n'` character dropped — the
text is used as-is, preserving case, spaces and punctuation, with no
uppercasing or alphanumeric filtering. -/
theorem railfence_encrypt_is_rearrangement (text : PyStr) (rails : Int)
    (h2 : 2 ≤ rails) (hle : rails ≤ (text.length : Int)) :
    ∃ s, railfence.encrypt text rails = some s ∧
      List.Perm s (text.filter (fun c => c ≠ 10)) := by
  obtain ⟨heq, hperm⟩ := railfence_encrypt_eq_perm text rails h2 hle
  exact ⟨_, heq, hperm⟩

/-- Witness for C3's amended claim at `text = "ab c"`, `rails = 2`. -/
theorem railfence_encrypt_is_rearrangement_witness :
    (2 : Int) ≤ 2 ∧ (2 : Int) ≤ (([97, 98, 32, 99] : PyStr).length : Int) ∧
    ∃ s, railfence.encrypt [97, 98, 32, 99] 2 = some s ∧
      List.Perm s (([97, 98, 32, 99] : PyStr).filter (fun c => c ≠ 10)) :=
  ⟨by norm_num, by norm_num,
   railfence_encrypt_is_rearrangement [97, 98, 32, 99] 2 (by norm_num) (by norm_num)⟩

/-- C10: Rail Fence `encrypt` silently drops newline characters: for every
text containing `'\n'` and `2 ≤ rails ≤ len(text)`, no `'\n'` appears in the
output and the output is strictly shorter than the input, because `'\n'` is
also the empty-cell sentinel of the fence. -/
theorem railfence_encrypt_drops_newlines (text : PyStr) (rails : Int)
    (h2 : 2 ≤ rails) (hle : rails ≤ (text.length : Int)) (hnl : (10 : Nat) ∈ text) :
    ∃ s, railfence.encrypt text rails = some s ∧
      (10 : Nat) ∉ s ∧ s.length < text.length := by
  obtain ⟨heq, hperm⟩ := railfence_encrypt_eq_perm text rails h2 hle
  refine ⟨_, heq, ?_, ?_⟩
  · intro hmem
    have := hperm.mem_iff.mp hmem
    rw [List.mem_filter] at this
    simp at this
  · rw [hperm.length_eq]
    have hle2 := List.length_filter_le (fun c => c ≠ 10) text
    rcases lt_or_eq_of_le hle2 with hlt | heq2
    · exact hlt
    · exfalso
      have hall := List.filter_length_eq_length.mp heq2
      have := hall 10 hnl
      simp at this

/-- Witness for C10 at `text = "ab\ncd"`, `rails = 2`. -/
theorem railfence_encrypt_drops_newlines_witness :
    (2 : Int) ≤ 2 ∧ (2 : Int) ≤ (([97, 98, 10, 99, 100] : PyStr).length : Int) ∧
    (10 : Nat) ∈ ([97, 98, 10, 99, 100] : PyStr) ∧
    ∃ s, railfence.encrypt [97, 98, 10, 99, 100] 2 = some s ∧
      (10 : Nat) ∉ s ∧ s.length < ([97, 98, 10, 99, 100] : PyStr).length :=
  ⟨by norm_num, by norm_num, by decide,
   railfence_encrypt_drops_newlines [97, 98, 10, 99, 100] 2 (by norm_num) (by norm_num)
     (by decide)⟩

theorem intRange_nodup (lo hi : Int) : (intRange lo hi).Nodup :=
  List.Nodup.map (fun a b hab => by omega) (List.nodup_range _)

theorem mem_row {x y a lo hi : Int} :
    (x, y) ∈ (intRange lo hi).map (fun i => (a, i)) ↔ x = a ∧ lo ≤ y ∧ y ≤ hi := by
  rw [List.mem_map]
  constructor
  · rintro ⟨i, hi, heq⟩
    rw [mem_intRange] at hi
    injection heq with h1 h2
    subst h1; subst h2
    exact ⟨rfl, hi.1, hi.2⟩
  · rintro ⟨rfl, h2, h3⟩
    exact ⟨y, mem_intRange.mpr ⟨h2, h3⟩, rfl⟩

theorem mem_col {x y a lo hi : Int} :
    (x, y) ∈ (intRange lo hi).map (fun i => (i, a)) ↔ y = a ∧ lo ≤ x ∧ x ≤ hi := by
  rw [List.mem_map]
  constructor
  · rintro ⟨i, hi, heq⟩
    rw [mem_intRange] at hi
    injection heq with h1 h2
    subst h1; subst h2
    exact ⟨rfl, hi.1, hi.2⟩
  · rintro ⟨rfl, h2, h3⟩
    exact ⟨x, mem_intRange.mpr ⟨h2, h3⟩, rfl⟩

theorem mem_row_rev {x y a lo hi : Int} :
    (x, y) ∈ (intRange lo hi).reverse.map (fun i => (a, i)) ↔ x = a ∧ lo ≤ y ∧ y ≤ hi := by
  rw [List.map_reverse, List.mem_reverse]
  exact mem_row

theorem mem_col_rev {x y a lo hi : Int} :
    (x, y) ∈ (intRange lo hi).reverse.map (fun i => (i, a)) ↔ y = a ∧ lo ≤ x ∧ x ≤ hi := by
  rw [List.map_reverse, List.mem_reverse]
  exact mem_col

theorem row_nodup (a lo hi : Int) : ((intRange lo hi).map (fun i => (a, i))).Nodup :=
  List.Nodup.map (fun i j h => by simpa using h) (intRange_nodup lo hi)

theorem col_nodup (a lo hi : Int) : ((intRange lo hi).map (fun i => (i, a))).Nodup :=
  List.Nodup.map (fun i j h => by simpa using h) (intRange_nodup lo hi)

theorem row_rev_nodup (a lo hi : Int) :
    ((intRange lo hi).reverse.map (fun i => (a, i))).Nodup :=
  List.Nodup.map (fun i j h => by simpa using h)
    (List.nodup_reverse.mpr (intRange_nodup lo hi))

theorem col_rev_nodup (a lo hi : Int) :
    ((intRange lo hi).reverse.map (fun i => (i, a))).Nodup :=
  List.Nodup.map (fun i j h => by simpa using h)
    (List.nodup_reverse.mpr (intRange_nodup lo hi))

theorem spiral_inwardGo_spec :
    ∀ (n : Nat) (top bottom left right : Int), (bottom + 1 - top).toNat ≤ n →
    (route.spiral_inwardGo top bottom left right).Nodup ∧
    ∀ x y : Int, ((x, y) ∈ route.spiral_inwardGo top bottom left right ↔
      (top ≤ x ∧ x ≤ bottom ∧ left ≤ y ∧ y ≤ right)) := by
  intro n
  induction n with
  | zero =>
    intro t b l r hn
    have hg : ¬ (t ≤ b ∧ l ≤ r) := by omega
    rw [route.spiral_inwardGo, dif_neg hg]
    refine ⟨List.nodup_nil, ?_⟩
    intro x y
    simp only [List.not_mem_nil, false_iff]
    intro hc
    omega
  | succ n ih =>
    intro t b l r hn
    by_cases hg : t ≤ b ∧ l ≤ r
    · obtain ⟨htb, hlr⟩ := hg
      rw [route.spiral_inwardGo, dif_pos ⟨htb, hlr⟩]
      dsimp only
      by_cases hc1 : t + 1 ≤ b
      · by_cases hc2 : l ≤ r - 1
        · simp only [if_pos hc1, if_pos hc2]
          obtain ⟨ihn, ihm⟩ := ih (t + 1) (b - 1) (l + 1) (r - 1) (by omega)
          refine ⟨?_, ?_⟩
          · refine List.nodup_append.mpr
              ⟨List.nodup_append.mpr
                ⟨List.nodup_append.mpr
                  ⟨List.nodup_append.mpr ⟨row_nodup _ _ _, col_nodup _ _ _, ?_⟩,
                   row_rev_nodup _ _ _, ?_⟩,
                 col_rev_nodup _ _ _, ?_⟩,
               ihn, ?_⟩ <;>
            · rw [List.disjoint_left]
              rintro ⟨x, y⟩ hp hq
              simp only [List.mem_append, List.not_mem_nil, mem_row, mem_col, mem_row_rev,
                mem_col_rev, ihm, false_or, or_false] at hp hq
              omega
          · intro x y
            simp only [List.mem_append, List.not_mem_nil, mem_row, mem_col, mem_row_rev,
              mem_col_rev, ihm, false_or, or_false]
            omega
        · simp only [if_pos hc1, if_neg hc2]
          obtain ⟨ihn, ihm⟩ := ih (t + 1) (b - 1) l (r - 1) (by omega)
          refine ⟨?_, ?_⟩
          · refine List.nodup_append.mpr
              ⟨List.nodup_append.mpr
                ⟨List.nodup_append.mpr
                  ⟨List.nodup_append.mpr ⟨row_nodup _ _ _, col_nodup _ _ _, ?_⟩,
                   row_rev_nodup _ _ _, ?_⟩,
                 List.nodup_nil, ?_⟩,
               ihn, ?_⟩ <;>
            · rw [List.disjoint_left]
              rintro ⟨x, y⟩ hp hq
              simp only [List.mem_append, List.not_mem_nil, mem_row, mem_col, mem_row_rev,
                mem_col_rev, ihm, false_or, or_false] at hp hq
              all_goals omega
          · intro x y
            simp only [List.mem_append, List.not_mem_nil, mem_row, mem_col, mem_row_rev,
              mem_col_rev, ihm, false_or, or_false]
            omega
      · by_cases hc2 : l ≤ r - 1
        · simp only [if_pos hc2, if_neg hc1]
          obtain ⟨ihn, ihm⟩ := ih (t + 1) b (l + 1) (r - 1) (by omega)
          refine ⟨?_, ?_⟩
          · refine List.nodup_append.mpr
              ⟨List.nodup_append.mpr
                ⟨List.nodup_append.mpr
                  ⟨List.nodup_append.mpr ⟨row_nodup _ _ _, col_nodup _ _ _, ?_⟩,
                   List.nodup_nil, ?_⟩,
                 col_rev_nodup _ _ _, ?_⟩,
               ihn, ?_⟩ <;>
            · rw [List.disjoint_left]
              rintro ⟨x, y⟩ hp hq
              simp only [List.mem_append, List.not_mem_nil, mem_row, mem_col, mem_row_rev,
                mem_col_rev, ihm, false_or, or_false] at hp hq
              all_goals omega
          · intro x y
            simp only [List.mem_append, List.not_mem_nil, mem_row, mem_col, mem_row_rev,
              mem_col_rev, ihm, false_or, or_false]
            omega
        · simp only [if_neg hc1, if_neg hc2]
          obtain ⟨ihn, ihm⟩ := ih (t + 1) b l (r - 1) (by omega)
          refine ⟨?_, ?_⟩
          · refine List.nodup_append.mpr
              ⟨List.nodup_append.mpr
                ⟨List.nodup_append.mpr
                  ⟨List.nodup_append.mpr ⟨row_nodup _ _ _, col_nodup _ _ _, ?_⟩,
                   List.nodup_nil, ?_⟩,
                 List.nodup_nil, ?_⟩,
               ihn, ?_⟩ <;>
            · rw [List.disjoint_left]
              rintro ⟨x, y⟩ hp hq
              simp only [List.mem_append, List.not_mem_nil, mem_row, mem_col, mem_row_rev,
                mem_col_rev, ihm, false_or, or_false] at hp hq
              all_goals omega
          · intro x y
            simp only [List.mem_append, List.not_mem_nil, mem_row, mem_col, mem_row_rev,
              mem_col_rev, ihm, false_or, or_false]
            omega
    · rw [route.spiral_inwardGo, dif_neg hg]
      push_neg at hg
      refine ⟨List.nodup_nil, ?_⟩
      intro x y
      simp only [List.not_mem_nil, false_iff]
      intro hc
      omega

theorem intRange_pairwise_lt (lo hi : Int) : (intRange lo hi).Pairwise (· < ·) := by
  unfold intRange
  rw [List.pairwise_map]
  exact (List.pairwise_lt_range _).imp (fun h => by omega)

theorem spiral_inward_spec (rows cols : Int) :
    (route.spiral_inward rows cols).Nodup ∧
    ∀ x y : Int, ((x, y) ∈ route.spiral_inward rows cols ↔
      0 ≤ x ∧ x ≤ rows - 1 ∧ 0 ≤ y ∧ y ≤ cols - 1) :=
  spiral_inwardGo_spec ((rows - 1 + 1 - 0).toNat) 0 (rows - 1) 0 (cols - 1) (le_refl _)

theorem spiral_outward_spec (rows cols : Int) :
    (route.spiral_outward rows cols).Nodup ∧
    ∀ x y : Int, ((x, y) ∈ route.spiral_outward rows cols ↔
      0 ≤ x ∧ x ≤ rows - 1 ∧ 0 ≤ y ∧ y ≤ cols - 1) := by
  obtain ⟨hn, hm⟩ := spiral_inward_spec rows cols
  unfold route.spiral_outward
  exact ⟨List.nodup_reverse.mpr hn, fun x y => by rw [List.mem_reverse]; exact hm x y⟩

theorem snake_row_mem {i x y cols : Int} :
    ((x, y) ∈ if i % 2 = 0 then (intRange 0 (cols - 1)).map (fun j => (i, j))
      else (intRange 0 (cols - 1)).reverse.map (fun j => (i, j))) ↔
    (x = i ∧ 0 ≤ y ∧ y ≤ cols - 1) := by
  split
  · exact mem_row
  · exact mem_row_rev

theorem snake_pattern_spec (rows cols : Int) :
    (route.snake_pattern rows cols).Nodup ∧
    ∀ x y : Int, ((x, y) ∈ route.snake_pattern rows cols ↔
      0 ≤ x ∧ x ≤ rows - 1 ∧ 0 ≤ y ∧ y ≤ cols - 1) := by
  constructor
  · unfold route.snake_pattern
    rw [List.nodup_flatMap]
    constructor
    · intro i _
      split
      · exact row_nodup _ _ _
      · exact row_rev_nodup _ _ _
    · refine (intRange_pairwise_lt 0 (rows - 1)).imp ?_
      intro i j hij
      rw [Function.onFun, List.disjoint_left]
      rintro ⟨x, y⟩ hpi hpj
      rw [snake_row_mem] at hpi hpj
      omega
  · intro x y
    unfold route.snake_pattern
    rw [List.mem_flatMap]
    constructor
    · rintro ⟨i, hi, hmem⟩
      rw [mem_intRange] at hi
      rw [snake_row_mem] at hmem
      omega
    · intro h
      refine ⟨x, mem_intRange.mpr (by omega), snake_row_mem.mpr (by omega)⟩

theorem diag_inner_mem {rows cols s x y : Int} :
    ((x, y) ∈ (intRange 0 (rows - 1)).filterMap
      (fun i => if 0 ≤ s - i ∧ s - i < cols then some (i, s - i) else none)) ↔
    (0 ≤ x ∧ x ≤ rows - 1 ∧ x + y = s ∧ 0 ≤ y ∧ y < cols) := by
  rw [List.mem_filterMap]
  constructor
  · rintro ⟨i, hi, hsome⟩
    rw [mem_intRange] at hi
    split at hsome
    · rename_i hcond
      injection hsome with heq
      injection heq with h1 h2
      subst h1
      subst h2
      omega
    · exact Option.noConfusion hsome
  · intro h
    refine ⟨x, mem_intRange.mpr (by omega), ?_⟩
    rw [if_pos (by omega)]
    have hy : s - x = y := by omega
    rw [hy]

theorem diagonal_pattern_spec (rows cols : Int) :
    (route.diagonal_pattern rows cols).Nodup ∧
    ∀ x y : Int, ((x, y) ∈ route.diagonal_pattern rows cols ↔
      0 ≤ x ∧ x ≤ rows - 1 ∧ 0 ≤ y ∧ y ≤ cols - 1) := by
  constructor
  · unfold route.diagonal_pattern
    rw [List.nodup_flatMap]
    constructor
    · intro s _
      dsimp only
      refine List.Nodup.filterMap ?_ (intRange_nodup _ _)
      intro a a' b hb hb'
      split at hb
      · split at hb'
        · rw [Option.mem_def, Option.some_inj] at hb hb'
          have h1 : b.1 = a := by rw [← hb]
          have h2 : b.1 = a' := by rw [← hb']
          omega
        · exact Option.noConfusion hb'
      · exact Option.noConfusion hb
    · refine (intRange_pairwise_lt 0 (rows + cols - 2)).imp ?_
      intro s s' hss
      rw [Function.onFun, List.disjoint_left]
      rintro ⟨x, y⟩ hp hq
      dsimp only at hp hq
      rw [diag_inner_mem] at hp hq
      omega
  · intro x y
    unfold route.diagonal_pattern
    rw [List.mem_flatMap]
    dsimp only
    constructor
    · rintro ⟨s, hs, hmem⟩
      rw [diag_inner_mem] at hmem
      omega
    · intro h
      refine ⟨x + y, mem_intRange.mpr (by omega), diag_inner_mem.mpr (by omega)⟩

/-- C4: each Route pattern generator is a pure function of `(rows, cols)`
alone (their Lean translations take no other argument), and for `rows ≥ 1`
and `cols ≥ 1` each of `spiral_inward`, `spiral_outward`, `snake_pattern`
and `diagonal_pattern` enumerates every grid cell `(row, col)` with
`0 ≤ row < rows`, `0 ≤ col < cols` exactly once: the list has no duplicate
and its members are exactly the grid cells. -/
theorem route_patterns_cover_grid (rows cols : Int)
    (hr : 1 ≤ rows) (hc : 1 ≤ cols) :
    ((route.spiral_inward rows cols).Nodup ∧
      ∀ x y : Int, ((x, y) ∈ route.spiral_inward rows cols ↔
        0 ≤ x ∧ x < rows ∧ 0 ≤ y ∧ y < cols)) ∧
    ((route.spiral_outward rows cols).Nodup ∧
      ∀ x y : Int, ((x, y) ∈ route.spiral_outward rows cols ↔
        0 ≤ x ∧ x < rows ∧ 0 ≤ y ∧ y < cols)) ∧
    ((route.snake_pattern rows cols).Nodup ∧
      ∀ x y : Int, ((x, y) ∈ route.snake_pattern rows cols ↔
        0 ≤ x ∧ x < rows ∧ 0 ≤ y ∧ y < cols)) ∧
    ((route.diagonal_pattern rows cols).Nodup ∧
      ∀ x y : Int, ((x, y) ∈ route.diagonal_pattern rows cols ↔
        0 ≤ x ∧ x < rows ∧ 0 ≤ y ∧ y < cols)) := by
  obtain ⟨n1, m1⟩ := spiral_inward_spec rows cols
  obtain ⟨n2, m2⟩ := spiral_outward_spec rows cols
  obtain ⟨n3, m3⟩ := snake_pattern_spec rows cols
  obtain ⟨n4, m4⟩ := diagonal_pattern_spec rows cols
  refine ⟨⟨n1, fun x y => ?_⟩, ⟨n2, fun x y => ?_⟩, ⟨n3, fun x y => ?_⟩, ⟨n4, fun x y => ?_⟩⟩
  · rw [m1 x y]; omega
  · rw [m2 x y]; omega
  · rw [m3 x y]; omega
  · rw [m4 x y]; omega

/-- Witness for C4 at `rows = 3`, `cols = 4`. -/
theorem route_patterns_cover_grid_witness :
    (1 : Int) ≤ 3 ∧ (1 : Int) ≤ 4 ∧
    ((0 : Int), (0 : Int)) ∈ route.spiral_inward 3 4 ∧
    ((2 : Int), (3 : Int)) ∈ route.diagonal_pattern 3 4 :=
  ⟨by norm_num, by norm_num,
   ((route_patterns_cover_grid 3 4 (by norm_num) (by norm_num)).1.2 0 0).mpr (by norm_num),
   ((route_patterns_cover_grid 3 4 (by norm_num) (by norm_num)).2.2.2.2 2 3).mpr
     (by norm_num)⟩

theorem ordA_alpha_bounds (c : Nat) (ha : isAlphaCp c = true) :
    0 ≤ ordA c ∧ ordA c < 26 := by
  have hr := (isAlphaCp_iff c).mp ha
  unfold ordA upperCp
  by_cases hl : isLowerCp c = true
  · have := (isLowerCp_iff c).mp hl
    rw [if_pos hl]
    omega
  · have : ¬ (97 ≤ c ∧ c ≤ 122) := fun hh => hl ((isLowerCp_iff c).mpr hh)
    rw [if_neg hl]
    omega

theorem ordA_recase (c : Nat) (e : Int) (h0 : 0 ≤ e) (h1 : e < 26) :
    ordA (recase c e) = e := by
  unfold ordA recase upperCp
  by_cases hu : isUpperCp c = true
  · rw [if_pos hu]
    have hl : ¬ isLowerCp ((65 + e).toNat) = true := by rw [isLowerCp_iff]; omega
    rw [if_neg hl]
    omega
  · rw [if_neg hu]
    have hl : isLowerCp ((97 + e).toNat) = true := by rw [isLowerCp_iff]; omega
    rw [if_pos hl]
    omega

theorem recase_congr_case (c1 c2 : Nat) (h : isUpperCp c1 = isUpperCp c2) (y : Int) :
    recase c1 y = recase c2 y := by
  unfold recase
  rw [h]

theorem recase_ordA (c : Nat) (ha : isAlphaCp c = true) : recase c (ordA c) = c := by
  have hr := (isAlphaCp_iff c).mp ha
  unfold recase ordA upperCp
  by_cases hu : isUpperCp c = true
  · have hru := (isUpperCp_iff c).mp hu
    have hl : ¬ isLowerCp c = true := by rw [isLowerCp_iff]; omega
    rw [if_pos hu, if_neg hl]
    omega
  · have : ¬ (65 ≤ c ∧ c ≤ 90) := fun hh => hu ((isUpperCp_iff c).mpr hh)
    have hl : isLowerCp c = true := by rw [isLowerCp_iff]; omega
    rw [if_neg hu, if_pos hl]
    omega

theorem beaufort_char_round (c k0 : Nat) (ha : isAlphaCp c = true) :
    beaufort.beaufortChar (beaufort.beaufortChar c k0) k0 = c := by
  unfold beaufort.beaufortChar
  rw [if_pos ha]
  have h0 : 0 ≤ (ordA k0 - ordA c) % 26 := emod26_nonneg _
  have h1 : (ordA k0 - ordA c) % 26 < 26 := emod26_lt _
  have ha' := (recase_props c ha _ h0 h1).1
  have hu' := (recase_props c ha _ h0 h1).2
  rw [if_pos ha', ordA_recase c _ h0 h1]
  have hc := ordA_alpha_bounds c ha
  have hx : (ordA k0 - (ordA k0 - ordA c) % 26) % 26 = ordA c := by omega
  rw [hx, recase_congr_case _ c hu', recase_ordA c ha]

theorem beaufort_double (key : PyStr) (hk : ¬ key.length = 0) :
    ∀ (t : PyStr) (ki : Nat),
      ∃ ks, beaufort.prepare_keyGo key ki t = some ks ∧
        beaufort.prepare_keyGo key ki (List.zipWith beaufort.beaufortChar t ks) = some ks ∧
        List.zipWith beaufort.beaufortChar (List.zipWith beaufort.beaufortChar t ks) ks = t := by
  intro t
  induction t with
  | nil => intro ki; exact ⟨[], rfl, rfl, rfl⟩
  | cons c cs ih =>
    intro ki
    by_cases ha : isAlphaCp c = true
    · obtain ⟨ks, h1, h2, h3⟩ := ih (ki + 1)
      refine ⟨key.getD (ki % key.length) 0 :: ks, ?_, ?_, ?_⟩
      · simp only [beaufort.prepare_keyGo]
        rw [if_pos ha, if_neg hk, h1]
        rfl
      · simp only [List.zipWith_cons_cons, beaufort.prepare_keyGo]
        have ha' : isAlphaCp (beaufort.beaufortChar c (key.getD (ki % key.length) 0)) =
            true := by
          unfold beaufort.beaufortChar
          rw [if_pos ha]
          exact (recase_props c ha _ (emod26_nonneg _) (emod26_lt _)).1
        rw [if_pos ha', if_neg hk, h2]
        rfl
      · simp only [List.zipWith_cons_cons]
        rw [h3, beaufort_char_round c _ ha]
    · obtain ⟨ks, h1, h2, h3⟩ := ih ki
      have hcc : beaufort.beaufortChar c c = c := by
        unfold beaufort.beaufortChar
        rw [if_neg ha]
      refine ⟨c :: ks, ?_, ?_, ?_⟩
      · simp only [beaufort.prepare_keyGo]
        rw [if_neg ha, h1]
        rfl
      · simp only [List.zipWith_cons_cons, beaufort.prepare_keyGo]
        rw [hcc, if_neg ha, h2]
        rfl
      · simp only [List.zipWith_cons_cons]
        rw [hcc, hcc, h3]

/-- C7 (amended): `beaufort` is self-inverse for every non-empty key and
every text — `beaufort(beaufort(t, k), k) == t`.  With the empty key it
instead raises `ZeroDivisionError` as soon as the text contains a letter. -/
theorem beaufort_self_inverse (t key : PyStr) (hk : key ≠ []) :
    (beaufort.beaufort t key).bind (fun u => beaufort.beaufort u key) = some t := by
  have hk' : ¬ (upperStr key).length = 0 := by
    simp [upperStr, List.length_eq_zero]
    exact hk
  obtain ⟨ks, h1, h2, h3⟩ := beaufort_double (upperStr key) hk' t 0
  unfold beaufort.beaufort beaufort.prepare_key
  rw [h1]
  simp only [Option.map_some', Option.some_bind]
  rw [h2]
  simp only [Option.map_some']
  rw [h3]

/-- Witness for C7 at `t = "Hello, World!"`, `key = "KeY"`. -/
theorem beaufort_self_inverse_witness :
    ([75, 101, 89] : PyStr) ≠ [] ∧
    (beaufort.beaufort [72, 101, 108, 108, 111, 44, 32, 87, 111, 114, 108, 100, 33]
        [75, 101, 89]).bind
      (fun u => beaufort.beaufort u [75, 101, 89]) =
      some [72, 101, 108, 108, 111, 44, 32, 87, 111, 114, 108, 100, 33] :=
  ⟨by decide,
   beaufort_self_inverse [72, 101, 108, 108, 111, 44, 32, 87, 111, 114, 108, 100, 33]
     [75, 101, 89] (by decide)⟩

/-- C7: with the empty key and a text containing a letter, `beaufort` hits
`key_index % len(key)` with `len(key) = 0` and raises `ZeroDivisionError`
(modelled as `none`), so the double application does not return the text. -/
theorem beaufort_empty_key_counterexample :
    ((beaufort.beaufort [65] []).bind (fun u => beaufort.beaufort u [])) ≠
      some [65] := by
  decide


theorem getD_set_list {α : Type} (l : List α) (i j : Nat) (v d : α) :
    ((l.set i v).getD j d) = if i = j ∧ j < l.length then v else l.getD j d := by
  induction l generalizing i j with
  | nil =>
    simp
  | cons a l ih =>
    cases i with
    | zero =>
      cases j with
      | zero => simp
      | succ j => simp
    | succ i =>
      cases j with
      | zero => simp
      | succ j =>
        rw [List.set_cons_succ, List.getD_cons_succ, List.getD_cons_succ, ih i j]
        by_cases h : i = j ∧ j < l.length
        · rw [if_pos h, if_pos (by simp only [List.length_cons]; omega)]
        · rw [if_neg h, if_neg (by simp only [List.length_cons]; omega)]

theorem cellAt_set (g : myszkowski.MGrid) (r col : Nat) (u : Nat) (r2 c2 : Nat) :
    myszkowski.cellAt (g.set r ((g.getD r []).set col (some u))) r2 c2 =
    if r = r2 ∧ r2 < g.length ∧ col = c2 ∧ c2 < (g.getD r []).length then some u
    else myszkowski.cellAt g r2 c2 := by
  unfold myszkowski.cellAt
  rw [getD_set_list]
  by_cases h1 : r = r2 ∧ r2 < g.length
  · rw [if_pos h1]
    obtain ⟨rfl, hr⟩ := h1
    rw [getD_set_list]
    by_cases h2 : col = c2 ∧ c2 < (g.getD r []).length
    · rw [if_pos h2, if_pos ⟨rfl, hr, h2⟩]
    · rw [if_neg h2, if_neg (by tauto)]
  · rw [if_neg h1, if_neg (by tauto)]

theorem grid_set_shape {g : myszkowski.MGrid} {rows cols : Nat}
    (hlen : g.length = rows) (hrow : ∀ row ∈ g, row.length = cols)
    (r col : Nat) (u : Nat) :
    (g.set r ((g.getD r []).set col (some u))).length = rows ∧
    ∀ row ∈ g.set r ((g.getD r []).set col (some u)), row.length = cols := by
  refine ⟨by simp [hlen], ?_⟩
  intro row hmem
  by_cases hr : r < g.length
  · rcases List.mem_or_eq_of_mem_set hmem with h | h
    · exact hrow _ h
    · subst h
      rw [List.length_set]
      exact hrow _ (by rw [List.getD_eq_getElem _ _ hr]; exact List.getElem_mem hr)
  · rw [List.set_eq_of_length_le (by omega)] at hmem
    exact hrow _ hmem

theorem fill_rows_spec (text : PyStr) (col : Nat) {rows cols : Nat} :
    ∀ (rs : List Nat) (g : myszkowski.MGrid) (idx : Nat),
      g.length = rows → (∀ row ∈ g, row.length = cols) →
      ((rs.foldl (fun st2 row =>
          (st2.1.set row ((st2.1.getD row []).set col (some (text.getD st2.2 0))),
           st2.2 + 1)) (g, idx)).1.length = rows ∧
       (∀ row ∈ (rs.foldl (fun st2 row =>
          (st2.1.set row ((st2.1.getD row []).set col (some (text.getD st2.2 0))),
           st2.2 + 1)) (g, idx)).1, row.length = cols) ∧
       (∀ r2 c2, (myszkowski.cellAt g r2 c2).isSome = true →
         (myszkowski.cellAt ((rs.foldl (fun st2 row =>
          (st2.1.set row ((st2.1.getD row []).set col (some (text.getD st2.2 0))),
           st2.2 + 1)) (g, idx)).1) r2 c2).isSome = true) ∧
       (∀ r ∈ rs, r < rows → col < cols →
         (myszkowski.cellAt ((rs.foldl (fun st2 row =>
          (st2.1.set row ((st2.1.getD row []).set col (some (text.getD st2.2 0))),
           st2.2 + 1)) (g, idx)).1) r col).isSome = true)) := by
  intro rs
  induction rs with
  | nil =>
    intro g idx hlen hrow
    exact ⟨hlen, hrow, fun _ _ h => h, fun r hr => absurd hr (List.not_mem_nil r)⟩
  | cons r0 rs ih =>
    intro g idx hlen hrow
    rw [List.foldl_cons]
    obtain ⟨slen, srow⟩ := grid_set_shape hlen hrow r0 col (text.getD idx 0)
    obtain ⟨ihlen, ihrow, ihmono, ihcov⟩ :=
      ih (g.set r0 ((g.getD r0 []).set col (some (text.getD idx 0)))) (idx + 1) slen srow
    refine ⟨ihlen, ihrow, ?_, ?_⟩
    · intro r2 c2 hsome
      refine ihmono r2 c2 ?_
      rw [cellAt_set]
      split
      · rfl
      · exact hsome
    · intro r hr hrrows hcol
      rcases List.mem_cons.mp hr with rfl | hr
      · refine ihmono r col ?_
        rw [cellAt_set, if_pos ?_]
        · rfl
        · refine ⟨rfl, by omega, rfl, ?_⟩
          have hmem : g.getD r [] ∈ g := by
            rw [List.getD_eq_getElem _ _ (by omega)]
            exact List.getElem_mem (by omega)
          rw [hrow _ hmem]
          exact hcol
      · exact ihcov r hr hrrows hcol

theorem fill_cols_spec (text : PyStr) {rows cols : Nat} :
    ∀ (os : List Nat) (g : myszkowski.MGrid) (idx : Nat),
      g.length = rows → (∀ row ∈ g, row.length = cols) →
      ((os.foldl (myszkowski.fillColumn text rows) (g, idx)).1.length = rows ∧
       (∀ row ∈ (os.foldl (myszkowski.fillColumn text rows) (g, idx)).1,
         row.length = cols) ∧
       (∀ r2 c2, (myszkowski.cellAt g r2 c2).isSome = true →
         (myszkowski.cellAt ((os.foldl (myszkowski.fillColumn text rows) (g, idx)).1)
           r2 c2).isSome = true) ∧
       (∀ c ∈ os, c < cols → ∀ r, r < rows →
         (myszkowski.cellAt ((os.foldl (myszkowski.fillColumn text rows) (g, idx)).1)
           r c).isSome = true)) := by
  intro os
  induction os with
  | nil =>
    intro g idx hlen hrow
    exact ⟨hlen, hrow, fun _ _ h => h, fun c hc => absurd hc (List.not_mem_nil c)⟩
  | cons c0 os ih =>
    intro g idx hlen hrow
    rw [List.foldl_cons]
    obtain ⟨flen, frow, fmono, fcov⟩ :=
      fill_rows_spec text c0 (List.range rows) g idx hlen hrow
    have hstep : myszkowski.fillColumn text rows (g, idx) c0 =
        (List.range rows).foldl (fun st2 row =>
          (st2.1.set row ((st2.1.getD row []).set c0 (some (text.getD st2.2 0))),
           st2.2 + 1)) (g, idx) := rfl
    obtain ⟨ihlen, ihrow, ihmono, ihcov⟩ :=
      ih (myszkowski.fillColumn text rows (g, idx) c0).1
        (myszkowski.fillColumn text rows (g, idx) c0).2
        (by rw [hstep]; exact flen) (by rw [hstep]; exact frow)
    have hpair : (myszkowski.fillColumn text rows (g, idx) c0) =
        ((myszkowski.fillColumn text rows (g, idx) c0).1,
         (myszkowski.fillColumn text rows (g, idx) c0).2) := rfl
    rw [← hpair] at ihlen ihrow ihmono ihcov
    refine ⟨ihlen, ihrow, ?_, ?_⟩
    · intro r2 c2 hsome
      refine ihmono r2 c2 ?_
      rw [hstep]
      exact fmono r2 c2 hsome
    · intro c hc hcols r hr
      rcases List.mem_cons.mp hc with rfl | hc
      · refine ihmono r c ?_
        rw [hstep]
        exact fcov r (List.mem_range.mpr hr) hr hcols
      · exact ihcov c hc hcols r hr

theorem mem_insertSorted (p : Nat × List Nat) (x : Nat × List Nat) :
    ∀ l, x ∈ myszkowski.insertSorted p l ↔ x = p ∨ x ∈ l := by
  intro l
  induction l with
  | nil => simp [myszkowski.insertSorted]
  | cons q qs ih =>
    unfold myszkowski.insertSorted
    split
    · simp only [List.mem_cons]
    · simp only [List.mem_cons, ih]
      tauto

theorem mem_sortByKey (l : List (Nat × List Nat)) (x : Nat × List Nat) :
    x ∈ myszkowski.sortByKey l ↔ x ∈ l := by
  unfold myszkowski.sortByKey
  induction l with
  | nil => simp
  | cons q qs ih =>
    rw [List.foldr_cons, mem_insertSorted, ih, List.mem_cons]

theorem groupsAdd_mem_mono (gs : List (Nat × List Nat)) (ch i : Nat) (x : Nat)
    (hx : x ∈ gs.flatMap (fun g => g.2)) :
    x ∈ (myszkowski.groupsAdd gs ch i).flatMap (fun g => g.2) := by
  unfold myszkowski.groupsAdd
  rw [List.mem_flatMap] at hx
  obtain ⟨g, hg, hxg⟩ := hx
  split
  · rw [List.mem_flatMap]
    refine ⟨if g.1 == ch then (g.1, g.2 ++ [i]) else g, List.mem_map_of_mem _ hg, ?_⟩
    split
    · simp only [List.mem_append]
      exact Or.inl hxg
    · exact hxg
  · rw [List.flatMap_append]
    exact List.mem_append_left _ (List.mem_flatMap.mpr ⟨g, hg, hxg⟩)

theorem groupsAdd_mem_new (gs : List (Nat × List Nat)) (ch i : Nat) :
    i ∈ (myszkowski.groupsAdd gs ch i).flatMap (fun g => g.2) := by
  unfold myszkowski.groupsAdd
  split
  · rename_i hany
    rw [List.any_eq_true] at hany
    obtain ⟨g, hg, hbeq⟩ := hany
    rw [List.mem_flatMap]
    refine ⟨(g.1, g.2 ++ [i]), ?_, by simp⟩
    have : (if g.1 == ch then (g.1, g.2 ++ [i]) else g) = (g.1, g.2 ++ [i]) := by
      rw [if_pos hbeq]
    rw [← this]
    exact List.mem_map_of_mem _ hg
  · rw [List.flatMap_append]
    refine List.mem_append_right _ ?_
    simp

theorem groups_fold_mem (ps : List (Nat × Nat)) :
    ∀ (gs : List (Nat × List Nat)),
      (∀ x, x ∈ gs.flatMap (fun g => g.2) →
        x ∈ ((ps.foldl (fun gs p => myszkowski.groupsAdd gs p.2 p.1) gs).flatMap
          (fun g => g.2))) ∧
      (∀ p ∈ ps, p.1 ∈ ((ps.foldl (fun gs p => myszkowski.groupsAdd gs p.2 p.1) gs).flatMap
          (fun g => g.2))) := by
  induction ps with
  | nil => exact fun gs => ⟨fun x hx => hx, fun p hp => absurd hp (List.not_mem_nil p)⟩
  | cons p0 ps ih =>
    intro gs
    rw [List.foldl_cons]
    refine ⟨?_, ?_⟩
    · intro x hx
      exact (ih _).1 x (groupsAdd_mem_mono gs p0.2 p0.1 x hx)
    · intro p hp
      rcases List.mem_cons.mp hp with rfl | hp
      · exact (ih _).1 p.1 (groupsAdd_mem_new gs p.2 p.1)
      · exact (ih _).2 p hp

theorem mem_order_of_lt (key : PyStr) (c : Nat) (hc : c < key.length) :
    c ∈ (myszkowski.get_column_groups key).flatMap (fun g => g.2) := by
  unfold myszkowski.get_column_groups
  have henum : (c, key.getD c 0) ∈ key.enum := by
    rw [List.mem_enum_iff_getElem?]
    rw [List.getElem?_eq_getElem hc, List.getD_eq_getElem _ _ hc]
  have hfold := (groups_fold_mem key.enum []).2 (c, key.getD c 0) henum
  rw [List.mem_flatMap] at hfold ⊢
  obtain ⟨g, hg, hcg⟩ := hfold
  exact ⟨g, (mem_sortByKey _ g).mpr hg, hcg⟩

theorem filterMap_id_length :
    ∀ (l : List (Option Nat)), (∀ x ∈ l, x.isSome = true) →
      (l.filterMap id).length = l.length := by
  intro l
  induction l with
  | nil => intro _; rfl
  | cons x l ih =>
    intro h
    obtain ⟨a, rfl⟩ := Option.isSome_iff_exists.mp (h x (List.mem_cons_self x l))
    have hred : (some a :: l).filterMap id = a :: l.filterMap id := by simp
    rw [hred, List.length_cons, List.length_cons,
      ih (fun y hy => h y (List.mem_cons_of_mem _ hy))]

theorem map_sum_const {α : Type} (g : List α) (f : α → Nat) (c : Nat)
    (h : ∀ x ∈ g, f x = c) : (g.map f).sum = g.length * c := by
  induction g with
  | nil => simp
  | cons a g ih =>
    rw [List.map_cons, List.sum_cons, h a (List.mem_cons_self a g),
      ih (fun x hx => h x (List.mem_cons_of_mem a hx)), List.length_cons, Nat.succ_mul,
      Nat.add_comm]

/-- C5 (amended): Myszkowski `decrypt` performs no ciphertext-length
validation.  For every non-empty key and every text — in particular when
`len(text)` is not a multiple of `len(key)` — it returns a result (raising
nothing) of length `(len(text) / len(key)) * len(key)`, silently ignoring the
trailing `len(text) mod len(key)` characters. -/
theorem myszkowski_decrypt_truncates (text key : PyStr) (hk : 0 < key.length) :
    ∃ s, myszkowski.decrypt text key = some s ∧
      s.length = (text.length / key.length) * key.length := by
  unfold myszkowski.decrypt
  rw [if_neg (by omega)]
  dsimp only
  refine ⟨_, rfl, ?_⟩
  set cols := key.length with hcols
  set rows := text.length / cols with hrows
  set grid0 : myszkowski.MGrid := List.replicate rows (List.replicate cols none) with hg0
  set order := (myszkowski.get_column_groups key).flatMap (fun g => g.2) with horder
  set filled := (order.foldl (myszkowski.fillColumn text rows) (grid0, 0)).1 with hfilled
  have hshape0 : grid0.length = rows ∧ ∀ row ∈ grid0, row.length = cols := by
    constructor
    · simp [hg0]
    · intro row hrow
      rw [hg0] at hrow
      rw [List.eq_of_mem_replicate hrow]
      simp
  obtain ⟨flen, frow, _, fcov⟩ :=
    @fill_cols_spec text rows cols order grid0 0 hshape0.1 hshape0.2
  rw [← hfilled] at flen frow fcov
  have hcell : ∀ r, r < rows → ∀ c, c < cols →
      (myszkowski.cellAt filled r c).isSome = true := by
    intro r hr c hc
    exact fcov c (mem_order_of_lt key c hc) hc r hr
  have hrowlen : ∀ row ∈ filled, (row.filterMap id).length = cols := by
    intro row hrow
    have hl : row.length = cols := frow row hrow
    obtain ⟨r, hrlt, hre⟩ := List.mem_iff_getElem.mp hrow
    have hall : ∀ x ∈ row, x.isSome = true := by
      intro x hx
      obtain ⟨c, hclt, hce⟩ := List.mem_iff_getElem.mp hx
      have : myszkowski.cellAt filled r c = x := by
        unfold myszkowski.cellAt
        rw [List.getD_eq_getElem _ _ hrlt, hre, List.getD_eq_getElem _ _ hclt, hce]
      rw [← this]
      exact hcell r (by omega) c (by rw [hl] at hclt; exact hclt)
    rw [filterMap_id_length row hall, hl]
  rw [List.length_flatMap]
  show (List.map (fun row => (row.filterMap id).length) filled).sum = rows * cols
  rw [map_sum_const _ _ cols hrowlen, flen]

theorem upperStr_alpha_upper (text : PyStr) :
    ∀ c ∈ upperStr text, isAlphaCp c = true → isUpperCp c = true := by
  intro c hc ha
  rw [upperStr, List.mem_map] at hc
  obtain ⟨c0, _, rfl⟩ := hc
  unfold upperCp at ha ⊢
  by_cases hl : isLowerCp c0 = true
  · rw [if_pos hl] at ha ⊢
    have := (isLowerCp_iff c0).mp hl
    rw [isUpperCp_iff]
    omega
  · rw [if_neg hl] at ha ⊢
    have h2 := (isAlphaCp_iff c0).mp ha
    have h3 : ¬ (97 ≤ c0 ∧ c0 ≤ 122) := fun hh => hl ((isLowerCp_iff c0).mpr hh)
    rw [isUpperCp_iff]
    omega

theorem chain'_append_lt (pos : List Nat) (i : Nat)
    (hchain : pos.Chain' (· < ·)) (hbound : ∀ x ∈ pos, x < i) :
    (pos ++ [i]).Chain' (· < ·) := by
  rw [List.chain'_append]
  refine ⟨hchain, List.chain'_singleton i, ?_⟩
  intro x hx y hy
  obtain ⟨hne, hxl⟩ := List.mem_getLast?_eq_getLast hx
  have hxy : i = y := by simpa using hy
  rw [← hxy]
  exact hbound x (hxl ▸ List.getLast_mem hne)

theorem addPos_spec (t : PyStr) (lenN : Nat)
    (d : List (PyStr × List Nat)) (k : PyStr) (i : Nat)
    (hk1 : k.length = lenN) (hk2 : ∀ c ∈ k, isAlphaCp c = true ∧ c ∈ t) (hk3 : k ≠ [])
    (hd : ∀ e ∈ d,
      (e.1.length = lenN ∧ (∀ c ∈ e.1, isAlphaCp c = true ∧ c ∈ t) ∧ e.1 ≠ [] ∧
        e.2 ≠ [] ∧ e.2.Chain' (· < ·)) ∧ ∀ x ∈ e.2, x < i) :
    ∀ e ∈ ngram.addPos d k i,
      (e.1.length = lenN ∧ (∀ c ∈ e.1, isAlphaCp c = true ∧ c ∈ t) ∧ e.1 ≠ [] ∧
        e.2 ≠ [] ∧ e.2.Chain' (· < ·)) ∧ ∀ x ∈ e.2, x ≤ i := by
  intro e he
  unfold ngram.addPos at he
  split at he
  · rw [List.mem_map] at he
    obtain ⟨e0, he0, heq⟩ := he
    obtain ⟨⟨p1, p2, p3, p4, p5⟩, pb⟩ := hd e0 he0
    by_cases hmatch : (e0.1 == k) = true
    · rw [if_pos hmatch] at heq
      subst heq
      refine ⟨⟨p1, p2, p3, by simp, chain'_append_lt e0.2 i p5 pb⟩, ?_⟩
      intro x hx
      rcases List.mem_append.mp hx with hx | hx
      · exact Nat.le_of_lt (pb x hx)
      · have : x = i := by simpa using hx
        omega
    · rw [if_neg hmatch] at heq
      subst heq
      exact ⟨⟨p1, p2, p3, p4, p5⟩, fun x hx => Nat.le_of_lt (pb x hx)⟩
  · rcases List.mem_append.mp he with he | he
    · obtain ⟨⟨p1, p2, p3, p4, p5⟩, pb⟩ := hd e he
      exact ⟨⟨p1, p2, p3, p4, p5⟩, fun x hx => Nat.le_of_lt (pb x hx)⟩
    · have : e = (k, [i]) := by simpa using he
      subst this
      refine ⟨⟨hk1, hk2, hk3, by simp, List.chain'_singleton i⟩, ?_⟩
      intro x hx
      have : x = i := by simpa using hx
      omega

theorem innerScan_fold_spec (t : PyStr) (len : Int) :
    ∀ (is : List Int) (seqs0 : List (PyStr × List Nat)),
      List.Pairwise (· < ·) is →
      (∀ i ∈ is, 0 ≤ i ∧ i + len ≤ (t.length : Int)) →
      (∀ e ∈ seqs0,
        (e.1.length = len.toNat ∧ (∀ c ∈ e.1, isAlphaCp c = true ∧ c ∈ t) ∧ e.1 ≠ [] ∧
          e.2 ≠ [] ∧ e.2.Chain' (· < ·)) ∧ ∀ x ∈ e.2, ∀ i ∈ is, (x : Int) < i) →
      ∀ e ∈ is.foldl (fun seqs i =>
          if ngram.pyIsAlphaStr ((t.drop i.toNat).take len.toNat)
          then ngram.addPos seqs ((t.drop i.toNat).take len.toNat) i.toNat else seqs) seqs0,
        e.1.length = len.toNat ∧ (∀ c ∈ e.1, isAlphaCp c = true ∧ c ∈ t) ∧ e.1 ≠ [] ∧
          e.2 ≠ [] ∧ e.2.Chain' (· < ·) := by
  intro is
  induction is with
  | nil =>
    intro seqs0 _ _ hs e he
    exact (hs e he).1
  | cons i0 is ih =>
    intro seqs0 hpair hrange hs
    rw [List.foldl_cons]
    rw [List.pairwise_cons] at hpair
    refine ih _ hpair.2 (fun i hi => hrange i (List.mem_cons_of_mem i0 hi)) ?_
    by_cases halpha :
        ngram.pyIsAlphaStr ((t.drop i0.toNat).take len.toNat) = true
    · rw [if_pos halpha]
      have hi0 := hrange i0 (List.mem_cons_self i0 is)
      have hslice : ((t.drop i0.toNat).take len.toNat).length = len.toNat := by
        have hne : ((t.drop i0.toNat).take len.toNat) ≠ [] := by
          unfold ngram.pyIsAlphaStr at halpha
          rcases Bool.and_eq_true_iff.mp halpha with ⟨h1, _⟩
          simpa using h1
        rw [List.length_take, List.length_drop]
        rcases Int.le_or_lt 0 len with hlen | hlen
        · omega
        · exfalso
          apply hne
          have : len.toNat = 0 := by omega
          rw [this, List.take_zero]
      have halstr : ∀ c ∈ (t.drop i0.toNat).take len.toNat,
          isAlphaCp c = true ∧ c ∈ t := by
        intro c hc
        unfold ngram.pyIsAlphaStr at halpha
        rcases Bool.and_eq_true_iff.mp halpha with ⟨_, h2⟩
        rw [List.all_eq_true] at h2
        exact ⟨h2 c hc, List.mem_of_mem_drop (List.mem_of_mem_take hc)⟩
      have hne : ((t.drop i0.toNat).take len.toNat) ≠ [] := by
        unfold ngram.pyIsAlphaStr at halpha
        rcases Bool.and_eq_true_iff.mp halpha with ⟨h1, _⟩
        simpa using h1
      intro e he
      obtain ⟨hp, hb⟩ := addPos_spec t len.toNat seqs0 _ i0.toNat hslice halstr hne
        (fun e0 he0 => ⟨(hs e0 he0).1, fun x hx => by
          have := (hs e0 he0).2 x hx i0 (List.mem_cons_self i0 is)
          omega⟩) e he
      refine ⟨hp, ?_⟩
      intro x hx i hi
      have hxi0 : x ≤ i0.toNat := hb x hx
      have hlt : i0 < i := hpair.1 i hi
      omega
    · rw [if_neg halpha]
      intro e he
      obtain ⟨hp, hb⟩ := hs e he
      exact ⟨hp, fun x hx i hi => hb x hx i (List.mem_cons_of_mem i0 hi)⟩

theorem updateDict_spec (Q : (PyStr × List Nat) → Prop) :
    ∀ (es d : List (PyStr × List Nat)),
      (∀ e ∈ d, Q e) → (∀ e ∈ es, Q e) →
      ∀ e ∈ ngram.updateDict d es, Q e := by
  intro es
  induction es with
  | nil => intro d hd _ e he; exact hd e he
  | cons e0 es ih =>
    intro d hd hes
    simp only [ngram.updateDict]
    refine ih _ ?_ (fun e he => hes e (List.mem_cons_of_mem e0 he))
    intro e he
    split at he
    · rw [List.mem_map] at he
      obtain ⟨o, ho, heq⟩ := he
      by_cases hm : (o.1 == e0.1) = true
      · rw [if_pos hm] at heq
        rw [← heq]
        exact hes e0 (List.mem_cons_self e0 es)
      · rw [if_neg hm] at heq
        rw [← heq]
        exact hd o ho
    · rcases List.mem_append.mp he with he2 | he2
      · exact hd e he2
      · have heq : e = e0 := by simpa using he2
        rw [heq]
        exact hes e0 (List.mem_cons_self e0 es)

/-- C9: every entry of `find_repeated_sequences` maps a purely alphabetic,
uppercase key whose length lies between `min_length` and `max_length` to a
strictly ascending list of at least two positions. -/
theorem find_repeated_sequences_entries (text : PyStr) (minL maxL : Int)
    (k : PyStr) (pos : List Nat)
    (hmem : (k, pos) ∈ ngram.find_repeated_sequences text minL maxL) :
    minL ≤ (k.length : Int) ∧ (k.length : Int) ≤ maxL ∧
    (∀ c ∈ k, isUpperCp c = true) ∧
    pos.Chain' (· < ·) ∧ 2 ≤ pos.length := by
  unfold ngram.find_repeated_sequences at hmem
  dsimp only at hmem
  revert hmem
  have main :
      ∀ (ls : List Int) (acc : List (PyStr × List Nat)),
        (∀ l ∈ ls, minL ≤ l ∧ l ≤ maxL) →
        (∀ e ∈ acc,
          minL ≤ (e.1.length : Int) ∧ (e.1.length : Int) ≤ maxL ∧
          (∀ c ∈ e.1, isUpperCp c = true) ∧ e.2.Chain' (· < ·) ∧ 2 ≤ e.2.length) →
        ∀ e ∈ ls.foldl (fun acc len =>
            ngram.updateDict acc
              ((ngram.innerScan (upperStr text) len).filter (fun e => 1 < e.2.length)))
          acc,
          minL ≤ (e.1.length : Int) ∧ (e.1.length : Int) ≤ maxL ∧
          (∀ c ∈ e.1, isUpperCp c = true) ∧ e.2.Chain' (· < ·) ∧ 2 ≤ e.2.length := by
    intro ls
    induction ls with
    | nil => intro acc _ hacc e he; exact hacc e he
    | cons l0 ls ih =>
      intro acc hls hacc
      rw [List.foldl_cons]
      refine ih _ (fun l hl => hls l (List.mem_cons_of_mem l0 hl)) ?_
      refine updateDict_spec _ _ _ hacc ?_
      intro e he
      rw [List.mem_filter] at he
      obtain ⟨hescan, hecount⟩ := he
      have hinner := innerScan_fold_spec (upperStr text) l0
        (intRange 0 ((upperStr text).length - l0)) [] (intRange_pairwise_lt _ _)
        (fun i hi => by
          rw [mem_intRange] at hi
          constructor
          · exact hi.1
          · have := hi.2
            omega)
        (fun e0 he0 => absurd he0 (List.not_mem_nil e0))
        e hescan
      obtain ⟨hlen, halpha, hne, _, hchain⟩ := hinner
      have hl0 := hls l0 (List.mem_cons_self l0 ls)
      have hlenpos : 1 ≤ e.1.length := List.length_pos.mpr hne
      refine ⟨by omega, by omega, ?_, hchain, by
        have : (1 : Nat) < e.2.length := by simpa using hecount
        omega⟩
      intro c hc
      exact upperStr_alpha_upper text c (halpha c hc).2 (halpha c hc).1
  intro hmem
  exact main (intRange minL maxL) []
    (fun l hl => by rw [mem_intRange] at hl; exact hl)
    (fun e he => absurd he (List.not_mem_nil e))
    (k, pos) hmem

/-- Witness for C5's amended claim at `text = "ABCDE"`, `key = "AB"` (length 5
is not a multiple of 2; the result keeps 4 characters). -/
theorem myszkowski_decrypt_truncates_witness :
    0 < ([65, 66] : PyStr).length ∧
    ∃ s, myszkowski.decrypt [65, 66, 67, 68, 69] [65, 66] = some s ∧
      s.length = (([65, 66, 67, 68, 69] : PyStr).length / ([65, 66] : PyStr).length) *
        ([65, 66] : PyStr).length :=
  ⟨by decide, myszkowski_decrypt_truncates [65, 66, 67, 68, 69] [65, 66] (by decide)⟩

/-- Witness for C9 at `text = "ABCABC"`, `min_length = max_length = 3`: the
entry `("ABC", [0, 3])`. -/
theorem find_repeated_sequences_entries_witness :
    (([65, 66, 67] : PyStr), ([0, 3] : List Nat)) ∈
      ngram.find_repeated_sequences [65, 66, 67, 65, 66, 67] 3 3 ∧
    ((3 : Int) ≤ ((([65, 66, 67] : PyStr).length : Nat) : Int) ∧
      ((([65, 66, 67] : PyStr).length : Nat) : Int) ≤ 3 ∧
      (∀ c ∈ ([65, 66, 67] : PyStr), isUpperCp c = true) ∧
      ([0, 3] : List Nat).Chain' (· < ·) ∧ 2 ≤ ([0, 3] : List Nat).length) :=
  ⟨by decide,
   find_repeated_sequences_entries [65, 66, 67, 65, 66, 67] 3 3 [65, 66, 67] [0, 3]
     (by decide)⟩

end Ciphers
